import Mathlib

/-!
# Verification of the YouTube subtitle translation core

Shallow embedding of the subtitle re-segmentation and playback-synchronized
translation pipeline of the Translator browser extension, together with proofs
of the specified properties.  Times are modelled as rationals, caption cue
stores as lists, the external re-segmentation / batch-translation services and
the cancellation flag as an explicit environment of oracles.
-/

namespace Translator

/-! ## Whitespace normalization

Model of the JavaScript idiom `text.replace(/\s+/g, " ").trim()` used by
`normalizeCueText` (src/youtube/subtitle-fetcher.ts) and by the pipeline when
it normalizes cue texts before re-segmentation.  The regex class `\s` is
modelled by the ASCII whitespace characters. -/

/-- Model of the JavaScript regex class `\s` (ASCII part). -/
def isWs (c : Char) : Bool :=
  c = ' ' || c = '\t' || c = '\n' || c = '\r'

/-- Whether a character list starts with a whitespace character. -/
def headIsWs (l : List Char) : Bool :=
  match l.head? with
  | some c => isWs c
  | none => false

/-- Model of `text.replace(/\s+/g, " ")`: every maximal run of whitespace
characters is replaced by a single space (all but the final character of a
whitespace run are dropped; the final one becomes a space). -/
def collapseWs : List Char → List Char
  | [] => []
  | c :: rest =>
    if isWs c then
      if headIsWs rest then collapseWs rest
      else ' ' :: collapseWs rest
    else c :: collapseWs rest

/-- Model of `String.prototype.trim`: drop whitespace from both ends. -/
def trimWs (l : List Char) : List Char :=
  ((l.dropWhile isWs).reverse.dropWhile isWs).reverse

/-- Model of `text.trim()` on strings. -/
def trimStr (s : String) : String :=
  ⟨trimWs s.data⟩

/-- Model of `text.replace(/\s+/g, " ").trim()`. -/
def normalizeWs (s : String) : String :=
  ⟨trimWs (collapseWs s.data)⟩

/-- The head of the character list (if any) is not whitespace. -/
def headNotWs (l : List Char) : Bool :=
  match l.head? with
  | some c => !isWs c
  | none => true

/-- No two adjacent characters are both whitespace. -/
def NoAdjWs (l : List Char) : Prop :=
  l.Chain' fun a b => ¬(isWs a = true ∧ isWs b = true)

instance (l : List Char) : Decidable (NoAdjWs l) :=
  inferInstanceAs (Decidable (l.Chain' fun a b => ¬(isWs a = true ∧ isWs b = true)))

/-- The only whitespace character that occurs is a plain space. -/
def wsOnlySpace (l : List Char) : Bool :=
  l.all fun c => !isWs c || c = ' '

/-- A string is whitespace-normalized: no leading or trailing whitespace, no
two adjacent whitespace characters, and all whitespace is a plain space. -/
def WsNormalized (s : String) : Prop :=
  headNotWs s.data = true ∧ headNotWs s.data.reverse = true ∧
    NoAdjWs s.data ∧ wsOnlySpace s.data = true

instance (s : String) : Decidable (WsNormalized s) :=
  inferInstanceAs (Decidable (_ ∧ _ ∧ _ ∧ _))

lemma headNotWs_dropWhile (l : List Char) : headNotWs (l.dropWhile isWs) = true := by
  induction l with
  | nil => rfl
  | cons c rest ih =>
    by_cases h : isWs c = true
    · simpa [List.dropWhile, h] using ih
    · rw [Bool.not_eq_true] at h
      simp [List.dropWhile, h, headNotWs]

lemma noAdjWs_dropWhile {l : List Char} (h : NoAdjWs l) : NoAdjWs (l.dropWhile isWs) := by
  induction l with
  | nil => exact h
  | cons c rest ih =>
    by_cases hc : isWs c = true
    · have h2 : NoAdjWs rest := (List.chain'_cons'.mp h).2
      simpa [List.dropWhile, hc] using ih h2
    · simpa [List.dropWhile, hc] using h

lemma wsOnlySpace_dropWhile {l : List Char} (h : wsOnlySpace l = true) :
    wsOnlySpace (l.dropWhile isWs) = true := by
  induction l with
  | nil => exact h
  | cons c rest ih =>
    simp only [wsOnlySpace, List.all_cons, Bool.and_eq_true] at h
    by_cases hc : isWs c = true
    · simp only [List.dropWhile, hc, if_true]
      exact ih h.2
    · simpa [List.dropWhile, hc, wsOnlySpace] using h

lemma noAdjWs_reverse {l : List Char} (h : NoAdjWs l) : NoAdjWs l.reverse := by
  unfold NoAdjWs at h ⊢
  rw [List.chain'_reverse]
  have : (flip fun a b => ¬(isWs a = true ∧ isWs b = true)) =
      fun (a b : Char) => ¬(isWs b = true ∧ isWs a = true) := rfl
  rw [this]
  exact h.imp fun a b hab ⟨h1, h2⟩ => hab ⟨h2, h1⟩

lemma wsOnlySpace_reverse {l : List Char} (h : wsOnlySpace l = true) :
    wsOnlySpace l.reverse = true := by
  simpa [wsOnlySpace] using h

lemma getLast?_dropWhile (l : List Char) (h : l.dropWhile isWs ≠ []) :
    (l.dropWhile isWs).getLast? = l.getLast? := by
  induction l with
  | nil => simp at h
  | cons c rest ih =>
    by_cases hc : isWs c = true
    · simp only [List.dropWhile, hc, if_true] at h ⊢
      have hrest : rest ≠ [] := by
        intro hr; rw [hr] at h; simp [List.dropWhile] at h
      rw [ih h]
      match rest, hrest with
      | b :: rb, _ => simp [List.getLast?]
    · simp [List.dropWhile, hc]

lemma headNotWs_of_headIsWs_false {l : List Char} (h : headIsWs l = false) :
    headNotWs l = true := by
  unfold headIsWs at h
  unfold headNotWs
  cases hl : l.head? with
  | none => rfl
  | some c =>
    rw [hl] at h
    simpa using h

/-- `collapseWs` preserves a non-whitespace head. -/
lemma headNotWs_collapseWs {l : List Char} (h : headNotWs l = true) :
    headNotWs (collapseWs l) = true := by
  match l with
  | [] => rfl
  | c :: rest =>
    simp only [headNotWs, List.head?] at h
    have hc : isWs c = false := by
      cases hic : isWs c
      · rfl
      · simp [hic] at h
    rw [collapseWs, hc]
    simp [headNotWs, hc]

lemma noAdjWs_nil : NoAdjWs [] := List.chain'_nil

lemma noAdjWs_collapseWs (l : List Char) : NoAdjWs (collapseWs l) := by
  induction l with
  | nil => exact noAdjWs_nil
  | cons c rest ih =>
    rw [collapseWs]
    by_cases hc : isWs c = true
    · rw [if_pos hc]
      by_cases hh : headIsWs rest = true
      · rw [if_pos hh]; exact ih
      · rw [if_neg hh]
        refine List.chain'_cons'.mpr ⟨?_, ih⟩
        intro y hy
        have hhead := headNotWs_collapseWs
          (headNotWs_of_headIsWs_false (Bool.not_eq_true _ ▸ hh))
        intro ⟨_, hwy⟩
        rw [headNotWs, hy] at hhead
        simp [hwy] at hhead
    · rw [if_neg hc]
      refine List.chain'_cons'.mpr ⟨fun y _ => ?_, ih⟩
      intro ⟨hwc, _⟩
      exact hc hwc

lemma wsOnlySpace_collapseWs (l : List Char) : wsOnlySpace (collapseWs l) = true := by
  induction l with
  | nil => rfl
  | cons c rest ih =>
    rw [collapseWs]
    by_cases hc : isWs c = true
    · rw [if_pos hc]
      by_cases hh : headIsWs rest = true
      · rw [if_pos hh]; exact ih
      · rw [if_neg hh]
        simpa [wsOnlySpace, isWs] using ih
    · rw [if_neg hc]
      simp only [wsOnlySpace, List.all_cons, Bool.and_eq_true]
      refine ⟨by simp [hc], ih⟩

lemma wsNormalized_trimWs {l : List Char}
    (hadj : NoAdjWs l) (hsp : wsOnlySpace l = true) :
    headNotWs (trimWs l) = true ∧ headNotWs (trimWs l).reverse = true ∧
      NoAdjWs (trimWs l) ∧ wsOnlySpace (trimWs l) = true := by
  set A := l.dropWhile isWs with hA
  set B := A.reverse.dropWhile isWs with hB
  have hres : trimWs l = B.reverse := rfl
  have hAadj : NoAdjWs A := noAdjWs_dropWhile hadj
  have hAsp : wsOnlySpace A = true := wsOnlySpace_dropWhile hsp
  have hAhead : headNotWs A = true := headNotWs_dropWhile l
  have hBadj : NoAdjWs B := noAdjWs_dropWhile (noAdjWs_reverse hAadj)
  have hBsp : wsOnlySpace B = true := wsOnlySpace_dropWhile (wsOnlySpace_reverse hAsp)
  have hBhead : headNotWs B = true := headNotWs_dropWhile A.reverse
  refine ⟨?_, ?_, ?_, ?_⟩
  · -- head of B.reverse is the last of B, which is the last of A.reverse, the head of A
    rw [hres]
    by_cases hBnil : B = []
    · simp [hBnil, headNotWs]
    · rw [headNotWs, List.head?_reverse]
      rw [hB, getLast?_dropWhile A.reverse (hB ▸ hBnil), List.getLast?_reverse]
      rw [headNotWs] at hAhead
      exact hAhead
  · rw [hres, List.reverse_reverse]
    exact hBhead
  · rw [hres]
    exact noAdjWs_reverse hBadj
  · rw [hres]
    exact wsOnlySpace_reverse hBsp

/-- The output of `normalizeWs` is whitespace-normalized. -/
theorem wsNormalized_normalizeWs (s : String) : WsNormalized (normalizeWs s) := by
  have h := wsNormalized_trimWs (l := collapseWs s.data)
    (noAdjWs_collapseWs s.data) (wsOnlySpace_collapseWs s.data)
  exact ⟨h.1, h.2.1, h.2.2.1, h.2.2.2⟩

/-! ## Data model

`SubtitleCue` mirrors the interface in src/shared/types.ts.  Times are
JavaScript numbers in the source, modelled as rationals. -/

structure SubtitleCue where
  start : ℚ
  duration : ℚ
  «end» : ℚ
  text : String
deriving DecidableEq, Repr, Inhabited

/-- One item of a batch-translation request (src/shared/types.ts). -/
structure BatchTranslationItem where
  id : String
  text : String
  contextBefore : List String
  contextAfter : List String
deriving DecidableEq, Repr

/-! ## Cue store lookup: `findCueByTime`

Embedding of `YouTubeSubtitleTranslator.findCueByTime` (src/youtube/index.ts):
a binary search over the cue list with `left`/`right` integer bounds. -/

/-- The loop body of `findCueByTime`.  `left`/`right` are kept as integers
exactly as in the source (where `right` starts at `length - 1`, possibly
`-1`).  The `none` branch of the inner match is unreachable for in-range
indices and merely totalizes the array access `this.cues[mid]`. -/
def findLoop (cues : List SubtitleCue) (t : ℚ) (l r : Int) : Option (Nat × SubtitleCue) :=
  if _h : l ≤ r then
    let mid := (l + r) / 2
    match cues.get? mid.toNat with
    | none => none
    | some cue =>
      if t < cue.start then findLoop cues t l (mid - 1)
      else if cue.«end» < t then findLoop cues t (mid + 1) r
      else some (mid.toNat, cue)
  else none
termination_by (r + 1 - l).toNat
decreasing_by all_goals omega

/-- `findCueByTime(currentTime)`: binary search for the cue whose span
contains the given time. -/
def findCueByTime (cues : List SubtitleCue) (t : ℚ) : Option (Nat × SubtitleCue) :=
  findLoop cues t 0 ((cues.length : Int) - 1)

/-- A cue index is active at time `t` iff its span contains `t`. -/
def isActive (cues : List SubtitleCue) (t : ℚ) (i : Nat) : Bool :=
  match cues.get? i with
  | some c => decide (c.start ≤ t) && decide (t ≤ c.«end»)
  | none => false

/-- Well-formedness of a cue store: each span is non-degenerate and the list
is sorted and mutually non-overlapping (`end[i] ≤ start[i+1]`). -/
def CueListWf (cues : List SubtitleCue) : Prop :=
  (∀ c ∈ cues, c.start ≤ c.«end») ∧ cues.Chain' fun a b => a.«end» ≤ b.start

instance (cues : List SubtitleCue) : Decidable (CueListWf cues) :=
  inferInstanceAs (Decidable (_ ∧ _))

lemma CueListWf.start_le_end {cues : List SubtitleCue} (h : CueListWf cues)
    {i : Nat} {c : SubtitleCue} (hc : cues.get? i = some c) : c.start ≤ c.«end» :=
  h.1 c (List.get?_mem hc)

lemma CueListWf.end_le_start_succ {cues : List SubtitleCue} (h : CueListWf cues)
    {i : Nat} {c c' : SubtitleCue}
    (hc : cues.get? i = some c) (hc' : cues.get? (i + 1) = some c') :
    c.«end» ≤ c'.start := by
  obtain ⟨hlen', hget'⟩ := List.get?_eq_some.mp hc'
  obtain ⟨hlen, hget⟩ := List.get?_eq_some.mp hc
  have key := List.chain'_iff_get.mp h.2 i (by omega)
  rwa [hget, hget'] at key

/-- Across a well-formed cue list, the end of an earlier cue is at most the
start of any strictly later cue. -/
lemma CueListWf.end_le_start {cues : List SubtitleCue} (h : CueListWf cues)
    {i j : Nat} {ci : SubtitleCue} (hi : cues.get? i = some ci) :
    ∀ {cj : SubtitleCue}, i < j → cues.get? j = some cj → ci.«end» ≤ cj.start := by
  induction j using Nat.strong_induction_on with
  | _ j ih =>
    intro cj hij hj
    by_cases hik : i + 1 = j
    · subst hik
      exact h.end_le_start_succ hi hj
    · have hk : j - 1 < cues.length := by
        have := (List.get?_eq_some.mp hj).1; omega
      obtain ⟨ck, hck⟩ : ∃ ck, cues.get? (j - 1) = some ck := by
        rw [List.get?_eq_get hk]; exact ⟨_, rfl⟩
      have h1 : ci.«end» ≤ ck.start := ih (j - 1) (by omega) (by omega) hck
      have h2 : ck.start ≤ ck.«end» := h.start_le_end hck
      have h3 : ck.«end» ≤ cj.start := by
        have hjj : (j - 1) + 1 = j := by omega
        exact h.end_le_start_succ hck (hjj ▸ hj)
      linarith

lemma CueListWf.start_mono {cues : List SubtitleCue} (h : CueListWf cues)
    {i j : Nat} {ci cj : SubtitleCue} (hij : i ≤ j)
    (hi : cues.get? i = some ci) (hj : cues.get? j = some cj) :
    ci.start ≤ cj.start := by
  rcases Nat.lt_or_ge i j with hlt | hge
  · exact le_trans (h.start_le_end hi) (h.end_le_start hi hlt hj)
  · have : i = j := by omega
    subst this
    rw [hi] at hj
    cases hj
    rfl

lemma CueListWf.end_mono {cues : List SubtitleCue} (h : CueListWf cues)
    {i j : Nat} {ci cj : SubtitleCue} (hij : i ≤ j)
    (hi : cues.get? i = some ci) (hj : cues.get? j = some cj) :
    ci.«end» ≤ cj.«end» := by
  rcases Nat.lt_or_ge i j with hlt | hge
  · exact le_trans (h.end_le_start hi hlt hj) (h.start_le_end hj)
  · have : i = j := by omega
    subst this
    rw [hi] at hj
    cases hj
    rfl

/-- Main invariant lemma for the binary search: if all active indices lie in
`[l, r]`, the loop either returns an active cue or correctly reports that no
cue is active. -/
lemma findLoop_correct (cues : List SubtitleCue) (t : ℚ) (hwf : CueListWf cues)
    (l r : Int) (hl : 0 ≤ l) (hr : r ≤ (cues.length : Int) - 1)
    (H : ∀ i : Nat, isActive cues t i = true → l ≤ (i : Int) ∧ (i : Int) ≤ r) :
    (∃ j c, isActive cues t j = true ∧ cues.get? j = some c ∧
        findLoop cues t l r = some (j, c))
    ∨ ((∀ i, isActive cues t i = false) ∧ findLoop cues t l r = none) := by
  induction l, r using findLoop.induct cues t with
  | case1 l r hlr mid heq =>
    -- get? mid.toNat = none: impossible for an in-range midpoint
    exfalso
    have hmid : (l + r) / 2 = (l + r) / 2 := rfl
    have hnone : cues.length ≤ ((l + r) / 2).toNat := List.get?_eq_none.mp heq
    omega
  | case2 l r hlr mid cue hceq hlt ih =>
    -- t < cue.start: recurse left
    have hceq' : cues.get? ((l + r) / 2).toNat = some cue := hceq
    have H' : ∀ i : Nat, isActive cues t i = true →
        l ≤ (i : Int) ∧ (i : Int) ≤ (l + r) / 2 - 1 := by
      intro i hi
      refine ⟨(H i hi).1, ?_⟩
      by_contra hcon
      have hge : ((l + r) / 2).toNat ≤ i := by omega
      obtain ⟨ci, hci⟩ : ∃ ci, cues.get? i = some ci := by
        unfold isActive at hi
        cases hgi : cues.get? i with
        | none => rw [hgi] at hi; simp at hi
        | some ci => exact ⟨ci, rfl⟩
      have hmono := hwf.start_mono hge hceq' hci
      unfold isActive at hi
      rw [hci] at hi
      simp only [Bool.and_eq_true, decide_eq_true_eq] at hi
      linarith
    have step := ih hl (by omega) H'
    have heqn : findLoop cues t l r = findLoop cues t l ((l + r) / 2 - 1) := by
      rw [findLoop]
      simp only [hlr, dif_pos]
      rw [hceq']
      simp [hlt]
    rw [heqn]
    exact step
  | case3 l r hlr mid cue hceq hnlt hgt ih =>
    -- cue.end < t: recurse right
    have hceq' : cues.get? ((l + r) / 2).toNat = some cue := hceq
    have H' : ∀ i : Nat, isActive cues t i = true →
        (l + r) / 2 + 1 ≤ (i : Int) ∧ (i : Int) ≤ r := by
      intro i hi
      refine ⟨?_, (H i hi).2⟩
      by_contra hcon
      have hle : i ≤ ((l + r) / 2).toNat := by omega
      obtain ⟨ci, hci⟩ : ∃ ci, cues.get? i = some ci := by
        unfold isActive at hi
        cases hgi : cues.get? i with
        | none => rw [hgi] at hi; simp at hi
        | some ci => exact ⟨ci, rfl⟩
      have hmono := hwf.end_mono hle hci hceq'
      unfold isActive at hi
      rw [hci] at hi
      simp only [Bool.and_eq_true, decide_eq_true_eq] at hi
      linarith
    have step := ih (by omega) hr H'
    have heqn : findLoop cues t l r = findLoop cues t ((l + r) / 2 + 1) r := by
      rw [findLoop]
      simp only [hlr, dif_pos]
      rw [hceq']
      simp [hnlt, hgt]
    rw [heqn]
    exact step
  | case4 l r hlr mid cue hceq hnlt hngt =>
    -- found: cue.start ≤ t ≤ cue.end
    have hceq' : cues.get? ((l + r) / 2).toNat = some cue := hceq
    left
    refine ⟨((l + r) / 2).toNat, cue, ?_, hceq', ?_⟩
    · unfold isActive
      rw [hceq']
      simp only [Bool.and_eq_true, decide_eq_true_eq]
      constructor <;> linarith [not_lt.mp hnlt, not_lt.mp hngt]
    · rw [findLoop]
      simp only [hlr, dif_pos]
      rw [hceq']
      simp [hnlt, hngt]
  | case5 l r hlr =>
    -- empty interval: no active cue can exist
    right
    constructor
    · intro i
      by_contra hi
      rw [Bool.not_eq_false] at hi
      have := H i hi
      omega
    · rw [findLoop]
      simp [hlr]

lemma isActive_lt_length {cues : List SubtitleCue} {t : ℚ} {i : Nat}
    (h : isActive cues t i = true) : i < cues.length := by
  unfold isActive at h
  cases hgi : cues.get? i with
  | none => rw [hgi] at h; simp at h
  | some c => exact (List.get?_eq_some.mp hgi).1

/-- C1: for a cue list that is sorted ascending by start and mutually
non-overlapping, `findCueByTime(t)` returns the unique cue (with its index)
whose span satisfies `start ≤ t ≤ end` when such a cue exists, returns
not-found when no cue's span contains `t` (a gap between cues, or a time
outside the covered range), and always returns not-found on an empty store. -/
theorem C1_findCueByTime_correct (cues : List SubtitleCue) (t : ℚ)
    (hwf : CueListWf cues) :
    (cues = [] → findCueByTime cues t = none) ∧
    ((∀ i, isActive cues t i = false) → findCueByTime cues t = none) ∧
    (∀ i c, cues.get? i = some c → isActive cues t i = true →
      (∀ j, j < cues.length → isActive cues t j = true → j = i) →
      findCueByTime cues t = some (i, c)) := by
  have main := findLoop_correct cues t hwf 0 ((cues.length : Int) - 1) le_rfl le_rfl
    (fun i hi => by
      have := isActive_lt_length hi
      omega)
  refine ⟨?_, ?_, ?_⟩
  · intro hnil
    rcases main with ⟨j, c, _, hg, _⟩ | ⟨_, hres⟩
    · rw [hnil] at hg; simp at hg
    · exact hres
  · intro hnone
    rcases main with ⟨j, c, hact, _, _⟩ | ⟨_, hres⟩
    · rw [hnone j] at hact; cases hact
    · exact hres
  · intro i c hc hact huniq
    rcases main with ⟨j, c', hact', hg', hres⟩ | ⟨hnone, _⟩
    · have hj : j = i := huniq j (isActive_lt_length hact') hact'
      subst hj
      rw [hc] at hg'
      cases hg'
      exact hres
    · rw [hnone i] at hact; cases hact

/-- Concrete cue store for the C1 witness. -/
def c1Cues : List SubtitleCue :=
  [⟨0, 1, 1, "a"⟩, ⟨2, 1, 3, "b"⟩]

theorem C1_witness :
    CueListWf c1Cues ∧ findCueByTime c1Cues 2 = some (1, ⟨2, 1, 3, "b"⟩) := by
  have hwf : CueListWf c1Cues := by
    refine ⟨by decide, ?_⟩
    unfold c1Cues
    exact List.chain'_cons.mpr ⟨by decide, List.chain'_singleton _⟩
  exact ⟨hwf, (C1_findCueByTime_correct c1Cues 2 hwf).2.2 1 ⟨2, 1, 3, "b"⟩
    (by rfl) (by decide) (by decide)⟩

/-! ## Fetch-side parsing: `parseJson3`

Embedding of `parseJson3` together with `normalizeCueText`
(src/youtube/subtitle-fetcher.ts).  `decodeEntities` delegates to the
browser's `DOMParser`, an external collaborator, so it is abstracted as an
arbitrary `decode : String → String` parameter; all theorems hold for every
decoder. -/

structure Json3Seg where
  utf8 : Option String
deriving Repr

structure Json3Event where
  tStartMs : Option ℚ
  dDurationMs : Option ℚ
  segs : Option (List Json3Seg)
deriving Repr

structure Json3Response where
  events : Option (List Json3Event)
deriving Repr

/-- `normalizeCueText`: decode entities, collapse whitespace, trim. -/
def normalizeCueText (decode : String → String) (s : String) : String :=
  normalizeWs (decode s)

/-- First pass of `parseJson3`: turn events into cues, skipping events whose
normalized text is empty and substituting the 2.2 s default duration. -/
def buildJson3Cues (decode : String → String) : List Json3Event → List SubtitleCue
  | [] => []
  | e :: rest =>
    let start := e.tStartMs.getD 0 / 1000
    let duration := e.dDurationMs.getD 0 / 1000
    let text := normalizeCueText decode
      (String.join ((e.segs.getD []).map fun s => s.utf8.getD ""))
    if text = "" then buildJson3Cues decode rest
    else
      let safeDuration := if 0 < duration then duration else 11 / 5
      ⟨start, safeDuration, start + safeDuration, text⟩ :: buildJson3Cues decode rest

/-- Second pass of `parseJson3`: cap a cue's `end` at the next cue's `start`
to prevent overlap (the next cue's `start` is never mutated by the loop, so
the in-place array pass is equivalent to this one-directional walk). -/
def capOverlaps : List SubtitleCue → List SubtitleCue
  | [] => []
  | [c] => [c]
  | c :: c' :: rest =>
    (if c'.start < c.«end» then
        { c with «end» := c'.start, duration := c'.start - c.start }
      else c) :: capOverlaps (c' :: rest)

/-- `parseJson3(data)`. -/
def parseJson3 (decode : String → String) (data : Json3Response) : List SubtitleCue :=
  capOverlaps (buildJson3Cues decode (data.events.getD []))

lemma buildJson3Cues_props (decode : String → String) (es : List Json3Event) :
    ∀ c ∈ buildJson3Cues decode es,
      c.text ≠ "" ∧ WsNormalized c.text ∧ c.«end» = c.start + c.duration := by
  induction es with
  | nil => intro c hc; simp [buildJson3Cues] at hc
  | cons e rest ih =>
    intro c hc
    rw [buildJson3Cues] at hc
    by_cases htext : normalizeCueText decode
        (String.join ((e.segs.getD []).map fun s => s.utf8.getD "")) = ""
    · rw [if_pos htext] at hc
      exact ih c hc
    · rw [if_neg htext] at hc
      rcases List.mem_cons.mp hc with hhd | htl
      · subst hhd
        exact ⟨htext, wsNormalized_normalizeWs _, rfl⟩
      · exact ih c htl

lemma capOverlaps_props {P : SubtitleCue → Prop}
    (hcap : ∀ c, P c → ∀ q, P { c with «end» := q, duration := q - c.start }) :
    ∀ l : List SubtitleCue, (∀ c ∈ l, P c) → ∀ c ∈ capOverlaps l, P c := by
  intro l
  induction l using capOverlaps.induct with
  | case1 =>
    intro _ c hc
    rw [capOverlaps] at hc
    simp at hc
  | case2 a =>
    intro h c hc
    rw [capOverlaps] at hc
    rcases List.mem_singleton.mp hc with rfl
    exact h c (by simp)
  | case3 a b rb ih =>
    intro h c hc
    rw [capOverlaps] at hc
    rcases List.mem_cons.mp hc with hhd | htl
    · subst hhd
      by_cases hlt : b.start < a.«end»
      · rw [if_pos hlt]
        exact hcap a (h a (by simp)) b.start
      · rw [if_neg hlt]
        exact h a (by simp)
    · exact ih (fun x hx => h x (List.mem_cons_of_mem a hx)) c htl

/-- The head of `capOverlaps (c :: rest)` has the same `start` as `c`. -/
lemma capOverlaps_head_start (c : SubtitleCue) (rest : List SubtitleCue) :
    ∃ y, (capOverlaps (c :: rest)).head? = some y ∧ y.start = c.start := by
  match rest with
  | [] => exact ⟨c, by rw [capOverlaps]; rfl, rfl⟩
  | b :: rb =>
    rw [capOverlaps]
    by_cases hcap : b.start < c.«end»
    · exact ⟨_, rfl, by rw [if_pos hcap]⟩
    · exact ⟨_, rfl, by rw [if_neg hcap]⟩

lemma capOverlaps_chain : ∀ l : List SubtitleCue,
    (capOverlaps l).Chain' fun a b => a.«end» ≤ b.start := by
  intro l
  induction l with
  | nil => rw [capOverlaps]; exact List.chain'_nil
  | cons a rest ih =>
    match rest with
    | [] => rw [capOverlaps]; exact List.chain'_singleton a
    | b :: rb =>
      rw [capOverlaps]
      refine List.chain'_cons'.mpr ⟨?_, ih⟩
      intro y hy
      obtain ⟨y', hy', hstart⟩ := capOverlaps_head_start b rb
      rw [hy'] at hy
      cases hy
      rw [hstart]
      by_cases hcap : b.start < a.«end»
      · rw [if_pos hcap]
      · rw [if_neg hcap]
        exact le_of_not_lt hcap

/-- C10: every cue returned by `parseJson3` has non-empty,
whitespace-normalized text and satisfies `end = start + duration`, and after
the overlap-capping pass every adjacent pair satisfies
`cues[i].end ≤ cues[i+1].start`. -/
theorem C10_parseJson3_wellformed (decode : String → String) (data : Json3Response) :
    (∀ c ∈ parseJson3 decode data,
      c.text ≠ "" ∧ WsNormalized c.text ∧ c.«end» = c.start + c.duration) ∧
    (parseJson3 decode data).Chain' (fun a b => a.«end» ≤ b.start) := by
  constructor
  · refine capOverlaps_props ?_ _ (buildJson3Cues_props decode _)
    intro c hc q
    refine ⟨hc.1, hc.2.1, ?_⟩
    simp only
    ring
  · exact capOverlaps_chain _

/-- Concrete json3 payload for the C10 witness: the first event's default
end would overlap the second event's start, exercising the capping pass. -/
def c10Data : Json3Response :=
  ⟨some [⟨some 0, some 1000, some [⟨some " hello  world "⟩]⟩,
         ⟨some 500, none, some [⟨some "x"⟩]⟩]⟩

/-- Evaluation of `parseJson3` on the witness payload: the first event's text
is whitespace-normalized, the second event receives the 2.2 s default
duration, and the first cue's end is capped at the second cue's start. -/
lemma c10_eval : parseJson3 id c10Data =
    [⟨0, 1 / 2, 1 / 2, "hello world"⟩, ⟨1 / 2, 11 / 5, 1 / 2 + 11 / 5, "x"⟩] := by
  norm_num +decide [parseJson3, c10Data, buildJson3Cues, capOverlaps]

theorem C10_witness :
    (⟨0, 1 / 2, 1 / 2, "hello world"⟩ : SubtitleCue) ∈ parseJson3 id c10Data ∧
      ((⟨0, 1 / 2, 1 / 2, "hello world"⟩ : SubtitleCue).text ≠ "" ∧
        WsNormalized (⟨0, 1 / 2, 1 / 2, "hello world"⟩ : SubtitleCue).text ∧
        (⟨0, 1 / 2, 1 / 2, "hello world"⟩ : SubtitleCue).«end» =
          (⟨0, 1 / 2, 1 / 2, "hello world"⟩ : SubtitleCue).start +
            (⟨0, 1 / 2, 1 / 2, "hello world"⟩ : SubtitleCue).duration) := by
  have hmem : (⟨0, 1 / 2, 1 / 2, "hello world"⟩ : SubtitleCue) ∈ parseJson3 id c10Data := by
    rw [c10_eval]
    exact List.mem_cons_self _ _
  exact ⟨hmem, (C10_parseJson3_wellformed id c10Data).1 _ hmem⟩

/-! ## Re-segmenter

The module `@youtube/asr-resegment` is imported by src/youtube/index.ts and
exercised by tests/asr-resegment.test.ts, but its own source file is not part
of the corpus, so it is modelled from the spec (§4.2, §4.3). -/

/-- One sentence-level range over cue store indices (both inclusive). -/
structure CueSentenceRange where
  startIndex : Nat
  endIndex : Nat
  text : String
deriving DecidableEq, Repr

/-- Number of maximal whitespace-delimited tokens in a character list. -/
def tokenCountAux : Bool → List Char → Nat
  | _, [] => 0
  | inTok, c :: rest =>
    if isWs c then tokenCountAux false rest
    else (if inTok then 0 else 1) + tokenCountAux true rest

def tokenCount (l : List Char) : Nat :=
  tokenCountAux false l

/-- Modelled from the spec: the "unit count" of §4.2 step 2 — if the
normalized text contains whitespace, the number of whitespace-delimited
tokens, otherwise the character length. -/
def unitCount (s : String) : Nat :=
  if s.data.any isWs then tokenCount s.data else s.data.length

/-- Modelled from the spec: §4.2 step 3 — starting at index `j`, accumulate
fragment unit counts until the target is reached or fragments run out;
returns the index where accumulation stopped. -/
def accEndAux (target : Nat) : List Nat → Nat → Nat → Nat
  | [], j, _ => j - 1
  | [_], j, _ => j
  | u :: rest, j, acc =>
    if target ≤ acc + u then j else accEndAux target rest (j + 1) (acc + u)

/-- Modelled from the spec: §4.2 steps 3–4 — walk a pointer across the
fragment cues, emitting one range per non-empty sentence; stop when the
pointer runs out of fragments. -/
def walkRanges (cueUnits : List Nat) : List String → Nat → List CueSentenceRange
  | [], _ => []
  | s :: rest, p =>
    if p < cueUnits.length then
      let target := max 1 (unitCount s)
      let e := accEndAux target (cueUnits.drop p) p 0
      ⟨p, e, s⟩ :: walkRanges cueUnits rest (e + 1)
    else []

/-- Modelled from the spec: §4.2 step 5 — merge trailing leftover fragments
into the last emitted range. -/
def mergeLeftover (n : Nat) (cueTexts : List String)
    (ranges : List CueSentenceRange) : List CueSentenceRange :=
  match ranges.getLast? with
  | none => []
  | some last =>
    if last.endIndex + 1 < n then
      ranges.dropLast ++
        [⟨last.startIndex, n - 1,
          last.text ++ " " ++ String.intercalate " " (cueTexts.drop (last.endIndex + 1))⟩]
    else ranges

/-- Modelled from the spec: §4.2 step 6 — identity ranges, one per cue. -/
def identityRanges (cueTexts : List String) : List CueSentenceRange :=
  cueTexts.enum.map fun p => ⟨p.1, p.1, p.2⟩

/-- Modelled from the spec: `mapSentencesToRangesOrFallback` of
`@youtube/asr-resegment` (the module source is not in the corpus) — align
sentences to cue index ranges by unit-count accumulation, merging leftover
fragments into the last range, and fall back to identity ranges when the
sentence list is empty (§4.2 step 7) or when the produced ranges retain less
than 70% of the original unit count (§4.2 step 6). -/
def mapSentencesToRangesOrFallback (sentences : List String)
    (cues : List SubtitleCue) : List CueSentenceRange :=
  let cueTexts := cues.map fun c => normalizeWs c.text
  let ss := (sentences.map normalizeWs).filter fun s => s ≠ ""
  if ss.isEmpty then identityRanges cueTexts
  else
    let ranges := mergeLeftover cues.length cueTexts
      (walkRanges (cueTexts.map unitCount) ss 0)
    let original := (cueTexts.map unitCount).sum
    let produced := (ranges.map fun r => unitCount r.text).sum
    if produced * 10 < original * 7 then identityRanges cueTexts else ranges

/-- Modelled from the spec: §4.2 closing paragraph — materialize a range as a
merged cue, deriving `start` from the first covered fragment and `end` from
the last, clamping `end` to be strictly after `start` (minimum 0.2 s span)
when the source data is degenerate. -/
def materializeRange (cues : List SubtitleCue) (r : CueSentenceRange) : SubtitleCue :=
  let s := ((cues.get? r.startIndex).map fun c => c.start).getD 0
  let e0 := ((cues.get? r.endIndex).map fun c => c.«end»).getD 0
  let e := if e0 ≤ s then s + 1 / 5 else e0
  ⟨s, e - s, e, r.text⟩

/-- Modelled from the spec: `mapSentencesToCuesOrFallback` of
`@youtube/asr-resegment` (the module source is not in the corpus) — the
merged-cue variant; with an empty sentence list, or when the validity guard
rejects the alignment, the original cues are returned unchanged (§8 fallback
property: identical start/end/duration/text, same order and count). -/
def mapSentencesToCuesOrFallback (sentences : List String)
    (cues : List SubtitleCue) : List SubtitleCue :=
  let cueTexts := cues.map fun c => normalizeWs c.text
  let ss := (sentences.map normalizeWs).filter fun s => s ≠ ""
  if ss.isEmpty then cues
  else
    let ranges := mergeLeftover cues.length cueTexts
      (walkRanges (cueTexts.map unitCount) ss 0)
    let original := (cueTexts.map unitCount).sum
    let produced := (ranges.map fun r => unitCount r.text).sum
    if produced * 10 < original * 7 then cues
    else ranges.map (materializeRange cues)

/-- C5: for every cue list, the merge-or-fallback re-segmentation variant
applied to an empty sentence list returns cues identical to the originals in
start, end, duration and text, in the same order and with the same count —
the identity fallback, taken without running the alignment walk. -/
theorem C5_mapSentencesToCuesOrFallback_empty (cues : List SubtitleCue) :
    mapSentencesToCuesOrFallback [] cues = cues := rfl

/-! ## Stage windower (spec-modelled, §4.3) -/

/-- A half-open stage window `[start, end)` over cue indices. -/
structure StageWindow where
  start : Nat
  «end» : Nat
deriving DecidableEq, Repr

/-- The unrotated stage partition: consecutive windows of `size` cues over
`[0, total)`, the last window possibly shorter. -/
def chunkWindows (total size : Nat) : List StageWindow :=
  (List.range ((total + size - 1) / size)).map fun i =>
    ⟨i * size, min total ((i + 1) * size)⟩

/-- `clamp(currentIndex, 0, totalCues - 1)` (§4.3). -/
def clampIndex (totalCues : Nat) (currentIndex : Int) : Nat :=
  (min (max currentIndex 0) ((totalCues : Int) - 1)).toNat

/-- Modelled from the spec: `buildStageWindowsByPlayback` of
`@youtube/asr-resegment` (the module source is not in the corpus) — partition
`[0, totalCues)` into windows of `stageSize` (floored to at least 1) and
rotate the list left so the window containing the clamped playback index
comes first; a single window is returned unrotated; `totalCues = 0` yields
an empty list (§4.3). -/
def buildStageWindowsByPlayback (totalCues stageSize : Nat) (currentIndex : Int) :
    List StageWindow :=
  if totalCues = 0 then []
  else
    let size := max 1 stageSize
    let windows := chunkWindows totalCues size
    if windows.length ≤ 1 then windows
    else windows.rotate (clampIndex totalCues currentIndex / size)

lemma chunkWindows_length (total size : Nat) :
    (chunkWindows total size).length = (total + size - 1) / size := by
  simp [chunkWindows]

lemma chunkWindows_get? (total size i : Nat) :
    (chunkWindows total size).get? i =
      if i < (total + size - 1) / size then some ⟨i * size, min total ((i + 1) * size)⟩
      else none := by
  by_cases h : i < (total + size - 1) / size
  · rw [if_pos h]
    unfold chunkWindows
    rw [List.get?_map, List.get?_range h]
    rfl
  · rw [if_neg h]
    refine List.get?_eq_none.mpr ?_
    rw [chunkWindows_length]
    omega

/-- `i` indexes a stage window iff the window's start is inside the store. -/
lemma chunk_lt_iff {total size : Nat} (hsize : 0 < size) (htot : 0 < total) (i : Nat) :
    i < (total + size - 1) / size ↔ i * size < total := by
  have h1 : i + 1 ≤ (total + size - 1) / size ↔ (i + 1) * size ≤ total + size - 1 :=
    Nat.le_div_iff_mul_le hsize
  rw [Nat.succ_mul] at h1
  omega

lemma chunk_count_pos {total size : Nat} (hsize : 0 < size) (htot : 0 < total) :
    0 < (total + size - 1) / size := by
  have := (chunk_lt_iff hsize htot 0).mpr (by simpa using htot)
  omega

lemma total_le_chunk_mul {total size : Nat} (hsize : 0 < size) (htot : 0 < total) :
    total ≤ ((total + size - 1) / size) * size := by
  by_contra h
  have := (chunk_lt_iff hsize htot ((total + size - 1) / size)).mpr (by omega)
  omega

lemma clampIndex_le {total : Nat} (htot : 0 < total) (idx : Int) :
    clampIndex total idx ≤ total - 1 := by
  unfold clampIndex
  have h1 : min (max idx 0) ((total : Int) - 1) ≤ (total : Int) - 1 := min_le_right _ _
  omega

/-- C6: for `stageSize ≥ 1`, `buildStageWindowsByPlayback` partitions
`[0, totalCues)` into consecutive windows of `stageSize` cues (the last
window possibly shorter) and rotates the list left by
`⌊clamp(currentIndex, 0, totalCues − 1) / stageSize⌋` positions, so the
window containing the playback position comes first; `totalCues = 0` yields
`[]`; in particular `buildStageWindowsByPlayback 250 100 160`
is `[{100,200},{200,250},{0,100}]`. -/
theorem C6_buildStageWindowsByPlayback_correct (totalCues stageSize : Nat)
    (currentIndex : Int) (hsize : 1 ≤ stageSize) :
    (buildStageWindowsByPlayback 0 stageSize currentIndex = []) ∧
    (0 < totalCues →
      ((chunkWindows totalCues stageSize).head?.map StageWindow.start = some 0) ∧
      ((chunkWindows totalCues stageSize).getLast?.map (fun w => w.«end») =
        some totalCues) ∧
      (chunkWindows totalCues stageSize).Chain' (fun a b => a.«end» = b.start) ∧
      (∀ w ∈ chunkWindows totalCues stageSize,
        w.start < w.«end» ∧ w.«end» - w.start ≤ stageSize) ∧
      (∀ i w, i + 1 < (chunkWindows totalCues stageSize).length →
        (chunkWindows totalCues stageSize).get? i = some w →
        w.«end» - w.start = stageSize) ∧
      (buildStageWindowsByPlayback totalCues stageSize currentIndex =
        (chunkWindows totalCues stageSize).rotate
          (clampIndex totalCues currentIndex / stageSize)) ∧
      (∃ w, ((chunkWindows totalCues stageSize).rotate
          (clampIndex totalCues currentIndex / stageSize)).head? = some w ∧
        w.start ≤ clampIndex totalCues currentIndex ∧
        clampIndex totalCues currentIndex < w.«end»)) ∧
    buildStageWindowsByPlayback 250 100 160 = [⟨100, 200⟩, ⟨200, 250⟩, ⟨0, 100⟩] := by
  have hsz : 0 < stageSize := hsize
  refine ⟨rfl, ?_, by decide⟩
  intro htot
  set m := (totalCues + stageSize - 1) / stageSize with hm
  set W := chunkWindows totalCues stageSize with hW
  set cl := clampIndex totalCues currentIndex with hcl
  set k := cl / stageSize with hk
  have hmpos : 0 < m := chunk_count_pos hsz htot
  have hlen : W.length = m := chunkWindows_length totalCues stageSize
  have hcle : cl ≤ totalCues - 1 := clampIndex_le htot currentIndex
  have hkm : k < m := by
    have h1 : k ≤ (totalCues - 1) / stageSize := by
      exact Nat.div_le_div_right hcle
    have h2 : (totalCues - 1) / stageSize < m := by
      rw [chunk_lt_iff hsz htot]
      have := Nat.div_mul_le_self (totalCues - 1) stageSize
      omega
    omega
  refine ⟨?_, ?_, ?_, ?_, ?_, ?_, ?_⟩
  · -- head starts at 0
    rw [← List.get?_zero, chunkWindows_get?, if_pos (hm ▸ hmpos)]
    simp
  · -- last ends at totalCues
    rw [List.getLast?_eq_get?, hlen, chunkWindows_get?, if_pos (by omega : m - 1 < (totalCues + stageSize - 1) / stageSize)]
    have hmm : (m - 1 + 1) = m := by omega
    simp only [Option.map_some']
    congr 1
    rw [hmm]
    exact Nat.min_eq_left (total_le_chunk_mul hsz htot)
  · -- adjacent windows are contiguous
    rw [List.chain'_iff_get]
    intro i hilen
    rw [hlen] at hilen
    have hi1 : i + 1 < m := by omega
    have hgi := chunkWindows_get? totalCues stageSize i
    have hgi1 := chunkWindows_get? totalCues stageSize (i + 1)
    rw [if_pos (by omega : i < (totalCues + stageSize - 1) / stageSize)] at hgi
    rw [if_pos (by omega : i + 1 < (totalCues + stageSize - 1) / stageSize)] at hgi1
    have hlt : (i + 1) * stageSize < totalCues := (chunk_lt_iff hsz htot (i + 1)).mp hi1
    have e1 := List.get?_eq_get (l := W) (n := i) (by omega)
    have e2 := List.get?_eq_get (l := W) (n := i + 1) (by omega)
    rw [e1] at hgi
    rw [e2] at hgi1
    rw [Option.some_inj] at hgi hgi1
    rw [hgi, hgi1]
    simpa using Nat.min_eq_right (le_of_lt hlt)
  · -- each window is non-empty and at most stageSize wide
    intro w hw
    obtain ⟨i, hgi⟩ := List.mem_iff_get?.mp hw
    rw [chunkWindows_get?] at hgi
    by_cases hi : i < (totalCues + stageSize - 1) / stageSize
    · rw [if_pos hi] at hgi
      cases hgi
      have hlt : i * stageSize < totalCues := (chunk_lt_iff hsz htot i).mp hi
      have hmul : (i + 1) * stageSize = i * stageSize + stageSize := Nat.succ_mul i stageSize
      constructor
      · simp only
        omega
      · simp only
        omega
    · rw [if_neg hi] at hgi
      cases hgi
  · -- all but the last window have exactly stageSize cues
    intro i w hilen hgi
    rw [hlen] at hilen
    rw [chunkWindows_get?, if_pos (by omega : i < (totalCues + stageSize - 1) / stageSize)] at hgi
    cases hgi
    have hlt : (i + 1) * stageSize < totalCues := (chunk_lt_iff hsz htot (i + 1)).mp (by omega)
    have hmul : (i + 1) * stageSize = i * stageSize + stageSize := Nat.succ_mul i stageSize
    simp only
    omega
  · -- the result is the rotated partition
    unfold buildStageWindowsByPlayback
    rw [if_neg (by omega : ¬totalCues = 0)]
    have hmax : max 1 stageSize = stageSize := Nat.max_eq_right hsize
    simp only [hmax]
    rw [← hW, ← hcl, hlen]
    by_cases hone : m ≤ 1
    · rw [if_pos hone]
      have hk0 : k = 0 := Nat.lt_one_iff.mp (lt_of_lt_of_le hkm hone)
      rw [hk0, List.rotate_zero]
    · rw [if_neg hone]
  · -- the first window of the rotation contains the playback index
    have hWlen : 0 < W.length := by omega
    have hhead : (W.rotate k).head? = W.get? k := by
      rw [← List.get?_zero, List.get?_rotate (by omega), hlen]
      rw [Nat.zero_add, Nat.mod_eq_of_lt hkm]
    rw [hhead, chunkWindows_get?, if_pos (by omega : k < (totalCues + stageSize - 1) / stageSize)]
    refine ⟨_, rfl, ?_, ?_⟩
    · exact Nat.div_mul_le_self cl stageSize
    · have hmlt : cl % stageSize < stageSize := Nat.mod_lt _ hsz
      have hcllt : cl < totalCues := by omega
      have hlt2 : cl < k * stageSize + stageSize := by
        have hmod : stageSize * k + cl % stageSize = cl := Nat.div_add_mod cl stageSize
        have : k * stageSize = stageSize * k := Nat.mul_comm k stageSize
        omega
      have hmul : (k + 1) * stageSize = k * stageSize + stageSize := Nat.succ_mul k stageSize
      simp only
      rw [hmul]
      exact Nat.lt_min.mpr ⟨hcllt, hlt2⟩

theorem C6_witness :
    buildStageWindowsByPlayback 250 100 160 = [⟨100, 200⟩, ⟨200, 250⟩, ⟨0, 100⟩] ∧
      (chunkWindows 250 100).getLast?.map (fun w => w.«end») = some 250 :=
  ⟨(C6_buildStageWindowsByPlayback_correct 250 100 160 (by decide)).2.2,
    ((C6_buildStageWindowsByPlayback_correct 250 100 160 (by decide)).2.1
      (by decide)).2.1⟩

/-! ## Playback-prioritized translation pipeline

Embedding of `YouTubeSubtitleTranslator.translateAsrCuesByPlaybackStages`,
`translateAllCues` and their helpers (src/youtube/index.ts).  The external
re-segment and batch-translation services, and the mutable cancellation state
(`this.enabled && this.currentVideoId === videoId`, which the event loop can
change between awaits), are modelled as oracles indexed by call/check number.
The mutable fields of the translator are threaded as an explicit
`PipelineState`, extended with logs of the dispatched requests. -/

/-- `DEFAULT_SUBTITLE_BATCH_SIZE` (src/shared/constants.ts). -/
def DEFAULT_SUBTITLE_BATCH_SIZE : Nat := 24

structure PipelineConfig where
  /-- `this.contextWindow`. -/
  contextWindow : Nat
  /-- `DEFAULT_SUBTITLE_BATCH_SIZE` in the source; kept as a parameter. -/
  subBatchSize : Nat
  /-- `RESEGMENT_BATCH_SIZE` (the constant's definition is not in the corpus). -/
  stageSize : Nat
deriving Repr

/-- The `this.progress` counters.  They are JavaScript numbers, modelled as
integers so that non-negativity is a statement, not a typing artifact. -/
structure Progress where
  total : Int
  translated : Int
  inflight : Int
  pending : Int
deriving DecidableEq, Repr

structure PipelineState where
  /-- `this.translations` (cue index → translated text). -/
  translations : List (Nat × String)
  progress : Progress
  /-- `this.lastError`. -/
  lastError : Option String
  /-- Number of enabled/video-identity checks performed so far. -/
  checks : Nat
  /-- Texts of the dispatched re-segment requests, in dispatch order. -/
  resegmentLog : List (List String)
  /-- Dispatched batch-translation requests, in dispatch order. -/
  batchLog : List (List BatchTranslationItem)
deriving DecidableEq, Repr

/-- External collaborators: `resegment`/`translateBatch` map a call number and
the request to a result (`Except.error` models promise rejection), and
`runActive n` is the value of `this.enabled && this.currentVideoId === videoId`
at the `n`-th check of the run. -/
structure PipelineEnv where
  resegment : Nat → List String → Except String (List String)
  translateBatch : Nat → List BatchTranslationItem →
    Except String (List (String × String))
  runActive : Nat → Bool

/-- `this.translations.has(k)`. -/
def mapHas (m : List (Nat × String)) (k : Nat) : Bool :=
  (m.lookup k).isSome

/-- `this.translations.set(k, v)`. -/
def mapSet (m : List (Nat × String)) (k : Nat) (v : String) : List (Nat × String) :=
  match m with
  | [] => [(k, v)]
  | (k', v') :: rest => if k' = k then (k, v) :: rest else (k', v') :: mapSet rest k v

/-- `getContext(index)` (lines 803–819): up to `contextWindow` preceding and
following cue texts, in cue order. -/
def getContext (cues : List SubtitleCue) (cw : Nat) (index : Nat) :
    List String × List String :=
  (((cues.take index).drop (index - cw)).map fun c => c.text,
    ((cues.drop (index + 1)).take cw).map fun c => c.text)

/-- One item of `buildBatchItems` (lines 821–834); the array access
`this.cues[index]` is totalized with a default cue. -/
def mkBatchItem (cues : List SubtitleCue) (cw : Nat) (index : Nat) :
    BatchTranslationItem :=
  { id := toString index
    text := (cues.getD index default).text
    contextBefore := (getContext cues cw index).1
    contextAfter := (getContext cues cw index).2 }

/-- `buildBatchItems(start, end)` over the half-open index interval. -/
def buildBatchItems (cues : List SubtitleCue) (cw : Nat) (start stop : Nat) :
    List BatchTranslationItem :=
  (List.range' start (stop - start)).map (mkBatchItem cues cw)

/-- `buildResegmentStageItems` (lines 895–928): one batch item per range with
non-blank text; the item id is the range's position in the list, and
`rangeByItemId` maps it to the absolute index span. -/
def buildStageItemsAux (cues : List SubtitleCue) (cw : Nat) (absStart : Nat) :
    Nat → List CueSentenceRange →
      List BatchTranslationItem × List (String × Nat × Nat)
  | _, [] => ([], [])
  | i, r :: rest =>
    let (its, maps) := buildStageItemsAux cues cw absStart (i + 1) rest
    if trimStr r.text = "" then (its, maps)
    else
      ({ id := toString i
         text := r.text
         contextBefore := (getContext cues cw (absStart + r.startIndex)).1
         contextAfter := (getContext cues cw (absStart + r.startIndex)).2 } :: its,
        (toString i, absStart + r.startIndex, absStart + r.endIndex) :: maps)

def buildResegmentStageItems (cues : List SubtitleCue) (cw : Nat)
    (ranges : List CueSentenceRange) (absStart : Nat) :
    List BatchTranslationItem × List (String × Nat × Nat) :=
  buildStageItemsAux cues cw absStart 0 ranges

/-- Write one translated sentence into the map for the listed indices,
incrementing `translated` once per newly-populated index (lines 1005–1010). -/
def applyWriteList (v : String) : List Nat → List (Nat × String) → Int →
    List (Nat × String) × Int
  | [], m, tr => (m, tr)
  | i :: rest, m, tr =>
    applyWriteList v rest (mapSet m i v) (if mapHas m i then tr else tr + 1)

/-- Process the mapping returned by one successful sub-batch (lines 999–1011):
`translated[item.id] ?? item.text` is written for every absolute index in the
item's range; items whose id is missing from `rangeByItemId` are skipped. -/
def applyBatchResults (resp : List (String × String))
    (byId : List (String × Nat × Nat)) :
    List BatchTranslationItem → List (Nat × String) → Int →
      List (Nat × String) × Int
  | [], m, tr => (m, tr)
  | it :: rest, m, tr =>
    match byId.lookup it.id with
    | none => applyBatchResults resp byId rest m tr
    | some (s, e) =>
      let value := (resp.lookup it.id).getD it.text
      let (m', tr') := applyWriteList value (List.range' s (e + 1 - s)) m tr
      applyBatchResults resp byId rest m' tr'

/-- Split a list into consecutive chunks of `n` elements (`n` floored to 1;
the source only uses `n = DEFAULT_SUBTITLE_BATCH_SIZE`). -/
def chunkAux (n : Nat) : List α → List α → Nat → List (List α)
  | [], acc, _ => [acc.reverse]
  | x :: xs, acc, k =>
    match k with
    | 0 => acc.reverse :: chunkAux n xs [x] (n - 1)
    | k' + 1 => chunkAux n xs (x :: acc) k'

def chunkList (n : Nat) : List α → List (List α)
  | [] => []
  | x :: xs => chunkAux n xs [x] (n - 1)

inductive SubBatchOutcome
  | completed
  | cancelled
  | failed (msg : String)
deriving DecidableEq, Repr

/-- The inner sub-batch loop of `translateAsrCuesByPlaybackStages`
(lines 989–1012): one cancellation check, then one awaited batch dispatch per
sub-batch; a rejection aborts the loop with `failed`, a failed check aborts it
with `cancelled`. -/
def runSubBatches (env : PipelineEnv) (byId : List (String × Nat × Nat)) :
    List (List BatchTranslationItem) → PipelineState →
      PipelineState × SubBatchOutcome
  | [], st => (st, .completed)
  | b :: rest, st =>
    if env.runActive st.checks = false then
      ({ st with checks := st.checks + 1 }, .cancelled)
    else
      let st1 : PipelineState := { st with checks := st.checks + 1 }
      let st2 : PipelineState := { st1 with batchLog := st1.batchLog ++ [b] }
      match env.translateBatch st1.batchLog.length b with
      | .error e => (st2, .failed e)
      | .ok resp =>
        let mt := applyBatchResults resp byId b st2.translations
          st2.progress.translated
        runSubBatches env byId rest
          { st2 with
            translations := mt.1
            progress := { st2.progress with translated := mt.2 } }

inductive StageOutcome
  | next
  | returned
  | broke
deriving DecidableEq, Repr

/-- The cue slice of a stage window (`this.cues.slice(stage.start, stage.end)`). -/
def stageChunk (cues : List SubtitleCue) (stage : StageWindow) : List SubtitleCue :=
  (cues.drop stage.start).take (stage.«end» - stage.start)

/-- The normalized, non-blank texts of a stage's cues (lines 958–960). -/
def stageTexts (cues : List SubtitleCue) (stage : StageWindow) : List String :=
  ((stageChunk cues stage).map fun c => normalizeWs c.text).filter fun s => s ≠ ""

/-- Progress update before dispatching a stage's sub-batches (lines 985–986). -/
def stageEnterProgress (cues : List SubtitleCue) (stage : StageWindow)
    (st : PipelineState) : PipelineState :=
  let cueCount : Int := ((stage.«end» - stage.start : Nat) : Int)
  let total : Int := (cues.length : Int)
  let p1 := { st.progress with inflight := st.progress.inflight + cueCount }
  { st with progress := { p1 with pending := max 0 (total - p1.translated - p1.inflight) } }

/-- The `finally` block of a stage (lines 1017–1023). -/
def stageFinallyProgress (cues : List SubtitleCue) (stage : StageWindow)
    (st : PipelineState) : PipelineState :=
  let cueCount : Int := ((stage.«end» - stage.start : Nat) : Int)
  let total : Int := (cues.length : Int)
  let pf1 := { st.progress with inflight := max 0 (st.progress.inflight - cueCount) }
  { st with progress := { pf1 with pending := max 0 (total - pf1.translated - pf1.inflight) } }

/-- The `catch` block of a stage (lines 1013–1016): record the error. -/
def recordOutcome (oc : SubBatchOutcome) (st : PipelineState) : PipelineState :=
  match oc with
  | .failed e => { st with lastError := some e }
  | _ => st

/-- How the stage loop proceeds after the sub-batch loop: a cancelled check
becomes an early `return` of the run, a rejection becomes `break`. -/
def stageOutcomeOf : SubBatchOutcome → StageOutcome
  | .completed => .next
  | .cancelled => .returned
  | .failed _ => .broke

/-- Batching phase of one stage (lines 980–1023): build the stage's batch
items, bump `inflight`/`pending`, run the sub-batches, record `lastError` on
failure, and restore the counters in the `finally` block. -/
def stageBatchPhase (env : PipelineEnv) (cfg : PipelineConfig)
    (cues : List SubtitleCue) (stage : StageWindow)
    (ranges : List CueSentenceRange) (st : PipelineState) :
    PipelineState × StageOutcome :=
  let ib := buildResegmentStageItems cues cfg.contextWindow ranges stage.start
  if ib.1.isEmpty then (st, .next)
  else
    let so := runSubBatches env ib.2 (chunkList cfg.subBatchSize ib.1)
      (stageEnterProgress cues stage st)
    (stageFinallyProgress cues stage (recordOutcome so.2 so.1), stageOutcomeOf so.2)

/-- One iteration of the stage loop (lines 947–1023): cancellation check,
empty-stage guards, the re-segment request with identity fallback on
rejection, then the batching phase. -/
def processStage (env : PipelineEnv) (cfg : PipelineConfig)
    (cues : List SubtitleCue) (stage : StageWindow) (st : PipelineState) :
    PipelineState × StageOutcome :=
  if env.runActive st.checks = false then
    ({ st with checks := st.checks + 1 }, .returned)
  else
    let st0 : PipelineState := { st with checks := st.checks + 1 }
    if stage.«end» ≤ stage.start then (st0, .next)
    else
      let chunk := stageChunk cues stage
      let texts := stageTexts cues stage
      if texts.isEmpty then
        stageBatchPhase env cfg cues stage (mapSentencesToRangesOrFallback [] chunk) st0
      else
        let st1 : PipelineState :=
          { st0 with resegmentLog := st0.resegmentLog ++ [texts] }
        match env.resegment st0.resegmentLog.length texts with
        | .ok sentences =>
          stageBatchPhase env cfg cues stage
            (mapSentencesToRangesOrFallback sentences chunk) st1
        | .error _ =>
          stageBatchPhase env cfg cues stage
            (mapSentencesToRangesOrFallback [] chunk) st1

/-- The stage loop of `translateAsrCuesByPlaybackStages`: stop on an early
return (cancellation) or a break (batch failure). -/
def runStages (env : PipelineEnv) (cfg : PipelineConfig) (cues : List SubtitleCue) :
    List StageWindow → PipelineState → PipelineState
  | [], st => st
  | stage :: rest, st =>
    match processStage env cfg cues stage st with
    | (st', .next) => runStages env cfg cues rest st'
    | (st', .returned) => st'
    | (st', .broke) => st'

/-- `getCurrentCueIndex()` (lines 886–893): 0 when there is no video element
or no active cue. -/
def getCurrentCueIndex (cues : List SubtitleCue) (videoTime : Option ℚ) : Nat :=
  match videoTime with
  | none => 0
  | some t =>
    match findCueByTime cues t with
    | some (i, _) => i
    | none => 0

/-- `translateAsrCuesByPlaybackStages(videoId)` (lines 930–1025), as a pure
function of the oracles, the configuration, the cue store and the video
clock. -/
def translateAsrCuesByPlaybackStages (env : PipelineEnv) (cfg : PipelineConfig)
    (cues : List SubtitleCue) (videoTime : Option ℚ) (st : PipelineState) :
    PipelineState :=
  if cues.length = 0 then st
  else
    runStages env cfg cues
      (buildStageWindowsByPlayback cues.length cfg.stageSize
        ((getCurrentCueIndex cues videoTime : Nat) : Int))
      st

/-- The per-item write-back of `translateAllCues` (lines 1054–1058):
`translated[item.id] ?? item.text` is stored at `Number(item.id)` and
`translated` is incremented once per item. -/
def applyAllResults (resp : List (String × String)) :
    List BatchTranslationItem → List (Nat × String) → Int →
      List (Nat × String) × Int
  | [], m, tr => (m, tr)
  | it :: rest, m, tr =>
    let value := (resp.lookup it.id).getD it.text
    applyAllResults resp rest (mapSet m ((it.id.toNat?).getD 0) value) (tr + 1)

/-- Progress update before dispatching one batch of `translateAllCues`
(lines 1049–1050), together with the request log entry. -/
def allEnter (cues : List SubtitleCue) (items : List BatchTranslationItem)
    (st : PipelineState) : PipelineState :=
  let total : Int := (cues.length : Int)
  let p1 := { st.progress with inflight := st.progress.inflight + (items.length : Int) }
  { st with
    progress := { p1 with pending := max 0 (total - p1.translated - p1.inflight) }
    batchLog := st.batchLog ++ [items] }

/-- The `finally` block of `translateAllCues` (lines 1063–1069). -/
def allFinally (cues : List SubtitleCue) (items : List BatchTranslationItem)
    (st : PipelineState) : PipelineState :=
  let total : Int := (cues.length : Int)
  let q1 := { st.progress with
    inflight := max 0 (st.progress.inflight - (items.length : Int)) }
  { st with progress := { q1 with
    pending := max 0 (total - q1.translated - q1.inflight) } }

/-- The loop of `translateAllCues` (lines 1033–1070) over pre-chunked index
windows: cancellation check, progress bump, awaited dispatch, write-back or
error recording, and the `finally` counter restore (a failure breaks the
loop). -/
def runAllLoop (env : PipelineEnv) (cfg : PipelineConfig) (cues : List SubtitleCue) :
    List (List Nat) → PipelineState → PipelineState
  | [], st => st
  | idxs :: rest, st =>
    if env.runActive st.checks = false then { st with checks := st.checks + 1 }
    else
      let st0 : PipelineState := { st with checks := st.checks + 1 }
      let items := idxs.map (mkBatchItem cues cfg.contextWindow)
      let stA := allEnter cues items st0
      match env.translateBatch st0.batchLog.length items with
      | .error e => allFinally cues items { stA with lastError := some e }
      | .ok resp =>
        let mt := applyAllResults resp items stA.translations stA.progress.translated
        runAllLoop env cfg cues rest
          (allFinally cues items
            { stA with
              translations := mt.1
              progress := { stA.progress with translated := mt.2 } })

/-- `translateAllCues(videoId)` (lines 1027–1071). -/
def translateAllCues (env : PipelineEnv) (cfg : PipelineConfig)
    (cues : List SubtitleCue) (st : PipelineState) : PipelineState :=
  if cues.length = 0 then st
  else runAllLoop env cfg cues (chunkList cfg.subBatchSize (List.range cues.length)) st

/-! ## Playback synchronizer -/

inductive RenderAction
  | hide
  | showText (text : String)
deriving DecidableEq, Repr

/-- `syncSubtitleByTime()` (lines 1108–1130): hide when disabled, when the
store is empty, when there is no video element, or when no cue is active;
otherwise show the cached translation, falling back to the error-flavored
message when `lastError` is set, else to the pending hint. -/
def syncSubtitleByTime (enabled : Bool) (cues : List SubtitleCue)
    (videoTime : Option ℚ) (translations : List (Nat × String))
    (lastError : Option String) (pendingHint : String) : RenderAction :=
  if !enabled || cues.isEmpty then .hide
  else
    match videoTime with
    | none => .hide
    | some t =>
      match findCueByTime cues t with
      | none => .hide
      | some (index, _) =>
        .showText ((translations.lookup index).getD
          (match lastError with
           | some e => "翻译失败：" ++ e
           | none => pendingHint))

/-- C8: on a synchronizer tick with translation enabled, a non-empty cue
store and a readable video clock: if `findCueByTime` finds no active cue the
renderer is told to hide; if an active cue exists and the Translation Map
holds an entry for its index, that entry is shown; if the entry is absent,
the pending placeholder is shown unless the last-error field is set, in which
case the error-flavored message is shown instead — so the last-error is
surfaced only when there is no cached translation for the active cue. -/
theorem C8_syncSubtitleByTime_correct (cues : List SubtitleCue) (t : ℚ)
    (translations : List (Nat × String)) (lastError : Option String)
    (pendingHint : String) (hne : cues ≠ []) :
    (findCueByTime cues t = none →
      syncSubtitleByTime true cues (some t) translations lastError pendingHint =
        .hide) ∧
    (∀ i c, findCueByTime cues t = some (i, c) →
      (∀ v, translations.lookup i = some v →
        syncSubtitleByTime true cues (some t) translations lastError pendingHint =
          .showText v) ∧
      (translations.lookup i = none → lastError = none →
        syncSubtitleByTime true cues (some t) translations lastError pendingHint =
          .showText pendingHint) ∧
      (translations.lookup i = none → ∀ e, lastError = some e →
        syncSubtitleByTime true cues (some t) translations lastError pendingHint =
          .showText ("翻译失败：" ++ e))) := by
  have hem : cues.isEmpty = false := by
    cases cues
    · exact absurd rfl hne
    · rfl
  constructor
  · intro hfind
    simp [syncSubtitleByTime, hem, hfind]
  · intro i c hfind
    refine ⟨?_, ?_, ?_⟩
    · intro v hv
      simp [syncSubtitleByTime, hem, hfind, hv]
    · intro hnone herr
      simp [syncSubtitleByTime, hem, hfind, hnone, herr]
    · intro hnone e herr
      simp [syncSubtitleByTime, hem, hfind, hnone, herr]

/-- Concrete cue store for the synchronizer witness. -/
def c8Cues : List SubtitleCue :=
  [⟨0, 1, 1, "a"⟩, ⟨2, 1, 3, "b"⟩]

/-- Evaluation of the binary search on the witness store: at `t = 2` the
active cue is the second one. -/
lemma c8_findCue : findCueByTime c8Cues 2 = some (1, ⟨2, 1, 3, "b"⟩) := by
  unfold findCueByTime c8Cues
  rw [findLoop]
  norm_num [List.get?]
  rw [findLoop]
  norm_num [List.get?]

theorem C8_witness :
    syncSubtitleByTime true c8Cues (some 2) [(1, "你好")] none "翻译中..." =
      .showText "你好" ∧
    syncSubtitleByTime true c8Cues (some 2) [] (some "boom") "翻译中..." =
      .showText ("翻译失败：" ++ "boom") := by
  constructor
  · exact ((C8_syncSubtitleByTime_correct c8Cues 2 [(1, "你好")] none "翻译中..."
      (by decide)).2 1 ⟨2, 1, 3, "b"⟩ c8_findCue).1 "你好" (by decide)
  · exact (((C8_syncSubtitleByTime_correct c8Cues 2 [] (some "boom") "翻译中..."
      (by decide)).2 1 ⟨2, 1, 3, "b"⟩ c8_findCue).2.2 (by decide) "boom" rfl)

/-! ## Equations and invariants of the pipeline -/

lemma processStage_check_false {env : PipelineEnv} {cfg : PipelineConfig}
    {cues : List SubtitleCue} {stage : StageWindow} {st : PipelineState}
    (h : env.runActive st.checks = false) :
    processStage env cfg cues stage st =
      ({ st with checks := st.checks + 1 }, .returned) := by
  unfold processStage
  simp [h]

lemma processStage_empty_window {env : PipelineEnv} {cfg : PipelineConfig}
    {cues : List SubtitleCue} {stage : StageWindow} {st : PipelineState}
    (h : env.runActive st.checks = true) (hw : stage.«end» ≤ stage.start) :
    processStage env cfg cues stage st =
      ({ st with checks := st.checks + 1 }, .next) := by
  unfold processStage
  simp [h, hw]

lemma processStage_no_texts {env : PipelineEnv} {cfg : PipelineConfig}
    {cues : List SubtitleCue} {stage : StageWindow} {st : PipelineState}
    (h : env.runActive st.checks = true) (hw : ¬stage.«end» ≤ stage.start)
    (ht : stageTexts cues stage = []) :
    processStage env cfg cues stage st =
      stageBatchPhase env cfg cues stage
        (mapSentencesToRangesOrFallback [] (stageChunk cues stage))
        { st with checks := st.checks + 1 } := by
  unfold processStage
  simp [h, hw, ht]

lemma processStage_resegment_ok {env : PipelineEnv} {cfg : PipelineConfig}
    {cues : List SubtitleCue} {stage : StageWindow} {st : PipelineState}
    {sentences : List String}
    (h : env.runActive st.checks = true) (hw : ¬stage.«end» ≤ stage.start)
    (ht : stageTexts cues stage ≠ [])
    (hr : env.resegment st.resegmentLog.length (stageTexts cues stage) =
      .ok sentences) :
    processStage env cfg cues stage st =
      stageBatchPhase env cfg cues stage
        (mapSentencesToRangesOrFallback sentences (stageChunk cues stage))
        { st with checks := st.checks + 1,
                  resegmentLog := st.resegmentLog ++ [stageTexts cues stage] } := by
  unfold processStage
  simp [h, hw, List.isEmpty_iff, ht, hr]

lemma processStage_resegment_error {env : PipelineEnv} {cfg : PipelineConfig}
    {cues : List SubtitleCue} {stage : StageWindow} {st : PipelineState}
    {e : String}
    (h : env.runActive st.checks = true) (hw : ¬stage.«end» ≤ stage.start)
    (ht : stageTexts cues stage ≠ [])
    (hr : env.resegment st.resegmentLog.length (stageTexts cues stage) =
      .error e) :
    processStage env cfg cues stage st =
      stageBatchPhase env cfg cues stage
        (mapSentencesToRangesOrFallback [] (stageChunk cues stage))
        { st with checks := st.checks + 1,
                  resegmentLog := st.resegmentLog ++ [stageTexts cues stage] } := by
  unfold processStage
  simp [h, hw, List.isEmpty_iff, ht, hr]

lemma runStages_nil {env : PipelineEnv} {cfg : PipelineConfig}
    {cues : List SubtitleCue} {st : PipelineState} :
    runStages env cfg cues [] st = st := rfl

lemma runStages_next {env : PipelineEnv} {cfg : PipelineConfig}
    {cues : List SubtitleCue} {stage : StageWindow} {rest : List StageWindow}
    {st st' : PipelineState}
    (h : processStage env cfg cues stage st = (st', .next)) :
    runStages env cfg cues (stage :: rest) st = runStages env cfg cues rest st' := by
  conv_lhs => rw [runStages]
  rw [h]

lemma runStages_returned {env : PipelineEnv} {cfg : PipelineConfig}
    {cues : List SubtitleCue} {stage : StageWindow} {rest : List StageWindow}
    {st st' : PipelineState}
    (h : processStage env cfg cues stage st = (st', .returned)) :
    runStages env cfg cues (stage :: rest) st = st' := by
  conv_lhs => rw [runStages]
  rw [h]

lemma runStages_broke {env : PipelineEnv} {cfg : PipelineConfig}
    {cues : List SubtitleCue} {stage : StageWindow} {rest : List StageWindow}
    {st st' : PipelineState}
    (h : processStage env cfg cues stage st = (st', .broke)) :
    runStages env cfg cues (stage :: rest) st = st' := by
  conv_lhs => rw [runStages]
  rw [h]

lemma runSubBatches_check_false {env : PipelineEnv}
    {byId : List (String × Nat × Nat)} {b : List BatchTranslationItem}
    {bs : List (List BatchTranslationItem)} {st : PipelineState}
    (h : env.runActive st.checks = false) :
    runSubBatches env byId (b :: bs) st =
      ({ st with checks := st.checks + 1 }, .cancelled) := by
  unfold runSubBatches
  simp [h]

lemma runSubBatches_error {env : PipelineEnv}
    {byId : List (String × Nat × Nat)} {b : List BatchTranslationItem}
    {bs : List (List BatchTranslationItem)} {st : PipelineState} {e : String}
    (h : env.runActive st.checks = true)
    (he : env.translateBatch st.batchLog.length b = .error e) :
    runSubBatches env byId (b :: bs) st =
      ({ st with checks := st.checks + 1, batchLog := st.batchLog ++ [b] },
        .failed e) := by
  unfold runSubBatches
  simp [h, he]

lemma runSubBatches_ok {env : PipelineEnv}
    {byId : List (String × Nat × Nat)} {b : List BatchTranslationItem}
    {bs : List (List BatchTranslationItem)} {st : PipelineState}
    {resp : List (String × String)}
    (h : env.runActive st.checks = true)
    (he : env.translateBatch st.batchLog.length b = .ok resp) :
    runSubBatches env byId (b :: bs) st =
      runSubBatches env byId bs
        { st with
          checks := st.checks + 1
          batchLog := st.batchLog ++ [b]
          translations := (applyBatchResults resp byId b st.translations
            st.progress.translated).1
          progress := { st.progress with
            translated := (applyBatchResults resp byId b st.translations
              st.progress.translated).2 } } := by
  conv_lhs => rw [runSubBatches]
  simp [h, he]

lemma recordOutcome_translations (oc : SubBatchOutcome) (st : PipelineState) :
    (recordOutcome oc st).translations = st.translations := by
  cases oc <;> rfl

lemma recordOutcome_checks (oc : SubBatchOutcome) (st : PipelineState) :
    (recordOutcome oc st).checks = st.checks := by
  cases oc <;> rfl

lemma recordOutcome_batchLog (oc : SubBatchOutcome) (st : PipelineState) :
    (recordOutcome oc st).batchLog = st.batchLog := by
  cases oc <;> rfl

lemma recordOutcome_resegmentLog (oc : SubBatchOutcome) (st : PipelineState) :
    (recordOutcome oc st).resegmentLog = st.resegmentLog := by
  cases oc <;> rfl

lemma recordOutcome_progress (oc : SubBatchOutcome) (st : PipelineState) :
    (recordOutcome oc st).progress = st.progress := by
  cases oc <;> rfl

lemma recordOutcome_lastError_completed (st : PipelineState) :
    (recordOutcome .completed st).lastError = st.lastError := rfl

lemma recordOutcome_lastError_cancelled (st : PipelineState) :
    (recordOutcome .cancelled st).lastError = st.lastError := rfl

lemma recordOutcome_lastError_failed (e : String) (st : PipelineState) :
    (recordOutcome (.failed e) st).lastError = some e := rfl

lemma applyWriteList_translated_le (v : String) :
    ∀ (idxs : List Nat) (m : List (Nat × String)) (tr : Int),
      tr ≤ (applyWriteList v idxs m tr).2 := by
  intro idxs
  induction idxs with
  | nil => intro m tr; exact le_rfl
  | cons i rest ih =>
    intro m tr
    rw [applyWriteList]
    refine le_trans ?_ (ih (mapSet m i v) _)
    by_cases h : mapHas m i = true <;> simp [h]

lemma applyBatchResults_translated_le (resp : List (String × String))
    (byId : List (String × Nat × Nat)) :
    ∀ (its : List BatchTranslationItem) (m : List (Nat × String)) (tr : Int),
      tr ≤ (applyBatchResults resp byId its m tr).2 := by
  intro its
  induction its with
  | nil => intro m tr; exact le_rfl
  | cons it rest ih =>
    intro m tr
    rw [applyBatchResults]
    cases byId.lookup it.id with
    | none => exact ih m tr
    | some p =>
      exact le_trans (applyWriteList_translated_le _ _ m tr) (ih _ _)

lemma runSubBatches_fields (env : PipelineEnv) (byId : List (String × Nat × Nat)) :
    ∀ (bs : List (List BatchTranslationItem)) (st : PipelineState),
      (runSubBatches env byId bs st).1.lastError = st.lastError ∧
      (runSubBatches env byId bs st).1.resegmentLog = st.resegmentLog ∧
      st.checks ≤ (runSubBatches env byId bs st).1.checks ∧
      (runSubBatches env byId bs st).1.progress.total = st.progress.total ∧
      (runSubBatches env byId bs st).1.progress.inflight = st.progress.inflight ∧
      (runSubBatches env byId bs st).1.progress.pending = st.progress.pending ∧
      st.progress.translated ≤ (runSubBatches env byId bs st).1.progress.translated ∧
      ∃ tail, (runSubBatches env byId bs st).1.batchLog = st.batchLog ++ tail := by
  intro bs
  induction bs with
  | nil =>
    intro st
    refine ⟨rfl, rfl, le_rfl, rfl, rfl, rfl, le_rfl, [], by simp [runSubBatches]⟩
  | cons b rest ih =>
    intro st
    by_cases h : env.runActive st.checks = true
    · cases he : env.translateBatch st.batchLog.length b with
      | error e =>
        rw [runSubBatches_error h he]
        exact ⟨rfl, rfl, by simp, rfl, rfl, rfl, le_rfl, [b], rfl⟩
      | ok resp =>
        rw [runSubBatches_ok h he]
        obtain ⟨h1, h2, h3, h4, h5, h6, h7, tail, h8⟩ := ih _
        refine ⟨h1, h2, by simp at h3 ⊢; omega, h4, h5, h6, ?_, b :: tail, ?_⟩
        · exact le_trans (applyBatchResults_translated_le resp byId b _ _)
            (by simpa using h7)
        · rw [h8]; simp
    · rw [runSubBatches_check_false (by simpa using h)]
      exact ⟨rfl, rfl, by simp, rfl, rfl, rfl, le_rfl, [], by simp⟩

lemma mapHas_mapSet {m : List (Nat × String)} {k : Nat} (k' : Nat) (v : String)
    (h : mapHas m k = true) : mapHas (mapSet m k' v) k = true := by
  induction m with
  | nil => simp [mapHas, List.lookup] at h
  | cons p rest ih =>
    obtain ⟨a, b⟩ := p
    rw [mapSet]
    by_cases hak : a = k'
    · rw [if_pos hak]
      subst hak
      by_cases hkk : a = k
      · subst hkk; simp [mapHas, List.lookup]
      · have hka : (k == a) = false := beq_eq_false_iff_ne.mpr fun hh => hkk hh.symm
        simp only [mapHas, List.lookup] at h ⊢
        rw [hka] at h ⊢
        exact h
    · rw [if_neg hak]
      by_cases hkk : a = k
      · subst hkk; simp [mapHas, List.lookup]
      · have hka : (k == a) = false := beq_eq_false_iff_ne.mpr fun hh => hkk hh.symm
        simp only [mapHas, List.lookup] at h ⊢
        rw [hka] at h ⊢
        exact ih h

lemma applyWriteList_has (v : String) :
    ∀ (idxs : List Nat) (m : List (Nat × String)) (tr : Int) (k : Nat),
      mapHas m k = true → mapHas (applyWriteList v idxs m tr).1 k = true := by
  intro idxs
  induction idxs with
  | nil => intro m tr k hk; exact hk
  | cons i rest ih =>
    intro m tr k hk
    rw [applyWriteList]
    exact ih _ _ k (mapHas_mapSet i v hk)

lemma applyBatchResults_has (resp : List (String × String))
    (byId : List (String × Nat × Nat)) :
    ∀ (its : List BatchTranslationItem) (m : List (Nat × String)) (tr : Int) (k : Nat),
      mapHas m k = true → mapHas (applyBatchResults resp byId its m tr).1 k = true := by
  intro its
  induction its with
  | nil => intro m tr k hk; exact hk
  | cons it rest ih =>
    intro m tr k hk
    rw [applyBatchResults]
    cases byId.lookup it.id with
    | none => exact ih m tr k hk
    | some p =>
      exact ih _ _ k (applyWriteList_has _ _ m tr k hk)

lemma runSubBatches_has (env : PipelineEnv) (byId : List (String × Nat × Nat)) :
    ∀ (bs : List (List BatchTranslationItem)) (st : PipelineState) (k : Nat),
      mapHas st.translations k = true →
      mapHas (runSubBatches env byId bs st).1.translations k = true := by
  intro bs
  induction bs with
  | nil => intro st k hk; exact hk
  | cons b rest ih =>
    intro st k hk
    by_cases h : env.runActive st.checks = true
    · cases he : env.translateBatch st.batchLog.length b with
      | error e =>
        rw [runSubBatches_error h he]
        exact hk
      | ok resp =>
        rw [runSubBatches_ok h he]
        exact ih _ k (applyBatchResults_has resp byId b _ _ k hk)
    · rw [runSubBatches_check_false (by simpa using h)]
      exact hk

lemma stageEnterProgress_translations (cues : List SubtitleCue) (stage : StageWindow)
    (st : PipelineState) : (stageEnterProgress cues stage st).translations =
      st.translations := rfl

lemma stageFinallyProgress_translations (cues : List SubtitleCue) (stage : StageWindow)
    (st : PipelineState) : (stageFinallyProgress cues stage st).translations =
      st.translations := rfl

lemma stageBatchPhase_translations_has (env : PipelineEnv) (cfg : PipelineConfig)
    (cues : List SubtitleCue) (stage : StageWindow) (ranges : List CueSentenceRange)
    (st : PipelineState) (k : Nat) (hk : mapHas st.translations k = true) :
    mapHas (stageBatchPhase env cfg cues stage ranges st).1.translations k = true := by
  unfold stageBatchPhase
  by_cases hemp : (buildResegmentStageItems cues cfg.contextWindow ranges
      stage.start).1.isEmpty = true
  · simpa [hemp] using hk
  · rw [if_neg hemp]
    rw [stageFinallyProgress_translations, recordOutcome_translations]
    refine runSubBatches_has env _ _ _ k ?_
    rw [stageEnterProgress_translations]
    exact hk

lemma processStage_translations_has (env : PipelineEnv) (cfg : PipelineConfig)
    (cues : List SubtitleCue) (stage : StageWindow) (st : PipelineState) (k : Nat)
    (hk : mapHas st.translations k = true) :
    mapHas (processStage env cfg cues stage st).1.translations k = true := by
  by_cases h : env.runActive st.checks = true
  · by_cases hw : stage.«end» ≤ stage.start
    · rw [processStage_empty_window h hw]
      exact hk
    · by_cases ht : stageTexts cues stage = []
      · rw [processStage_no_texts h hw ht]
        exact stageBatchPhase_translations_has env cfg cues stage _ _ k hk
      · cases hr : env.resegment st.resegmentLog.length (stageTexts cues stage) with
        | ok sentences =>
          rw [processStage_resegment_ok h hw ht hr]
          exact stageBatchPhase_translations_has env cfg cues stage _ _ k hk
        | error e =>
          rw [processStage_resegment_error h hw ht hr]
          exact stageBatchPhase_translations_has env cfg cues stage _ _ k hk
  · rw [processStage_check_false (by simpa using h)]
    exact hk

lemma runStages_translations_has (env : PipelineEnv) (cfg : PipelineConfig)
    (cues : List SubtitleCue) :
    ∀ (stages : List StageWindow) (st : PipelineState) (k : Nat),
      mapHas st.translations k = true →
      mapHas (runStages env cfg cues stages st).translations k = true := by
  intro stages
  induction stages with
  | nil => intro st k hk; exact hk
  | cons stage rest ih =>
    intro st k hk
    have hmono := processStage_translations_has env cfg cues stage st k hk
    rcases hps : processStage env cfg cues stage st with ⟨st', oc⟩
    rw [hps] at hmono
    cases oc with
    | next => rw [runStages_next hps]; exact ih st' k hmono
    | returned => rw [runStages_returned hps]; exact hmono
    | broke => rw [runStages_broke hps]; exact hmono

lemma stageBatchPhase_disabled (env : PipelineEnv) (cfg : PipelineConfig)
    (cues : List SubtitleCue) (stage : StageWindow) (ranges : List CueSentenceRange)
    (st : PipelineState) (h : env.runActive st.checks = false) :
    ∃ st' oc, stageBatchPhase env cfg cues stage ranges st = (st', oc) ∧
      st'.lastError = st.lastError ∧ st'.translations = st.translations ∧
      st'.batchLog = st.batchLog ∧ st'.resegmentLog = st.resegmentLog ∧
      st.checks ≤ st'.checks ∧ (oc = .next ∨ oc = .returned) := by
  unfold stageBatchPhase
  by_cases hemp : (buildResegmentStageItems cues cfg.contextWindow ranges
      stage.start).1.isEmpty = true
  · rw [if_pos hemp]
    exact ⟨st, .next, rfl, rfl, rfl, rfl, rfl, le_rfl, Or.inl rfl⟩
  · rw [if_neg hemp]
    cases hch : chunkList cfg.subBatchSize
        (buildResegmentStageItems cues cfg.contextWindow ranges stage.start).1 with
    | nil =>
      exact ⟨_, _, rfl, rfl, rfl, rfl, rfl, le_rfl, Or.inl rfl⟩
    | cons b bs =>
      rw [runSubBatches_check_false (show env.runActive
        (stageEnterProgress cues stage st).checks = false from h)]
      exact ⟨_, _, rfl, rfl, rfl, rfl, rfl, Nat.le_succ _, Or.inr rfl⟩

lemma runStages_disabled (env : PipelineEnv) (cfg : PipelineConfig)
    (cues : List SubtitleCue) (stages : List StageWindow) (st : PipelineState)
    (H : ∀ n, st.checks ≤ n → env.runActive n = false) :
    ∃ ck, runStages env cfg cues stages st = { st with checks := ck } := by
  cases stages with
  | nil => exact ⟨st.checks, rfl⟩
  | cons stage rest =>
    exact ⟨st.checks + 1,
      runStages_returned (processStage_check_false (H st.checks le_rfl))⟩

/-- C7: the enabled flag and the video identity are checked before each stage
and before each sub-batch dispatch.  A failed stage-boundary check makes the
run return immediately (no error recorded, nothing dispatched); a failed
sub-batch check stops the sub-batch loop before its dispatch; and once the
check condition is false from the next check onward, the run records no
error, writes no translation, dispatches no batch-translation request, and
dispatches at most the already-running stage's re-segment request. -/
theorem C7_cancellation_checks (env : PipelineEnv) (cfg : PipelineConfig)
    (cues : List SubtitleCue) (stage : StageWindow) (rest : List StageWindow)
    (byId : List (String × Nat × Nat)) (b : List BatchTranslationItem)
    (bs : List (List BatchTranslationItem)) (st : PipelineState) :
    (env.runActive st.checks = false →
      runStages env cfg cues (stage :: rest) st =
        { st with checks := st.checks + 1 }) ∧
    (env.runActive st.checks = false →
      runSubBatches env byId (b :: bs) st =
        ({ st with checks := st.checks + 1 }, .cancelled)) ∧
    ((∀ n, st.checks < n → env.runActive n = false) →
      (runStages env cfg cues (stage :: rest) st).lastError = st.lastError ∧
      (runStages env cfg cues (stage :: rest) st).translations = st.translations ∧
      (runStages env cfg cues (stage :: rest) st).batchLog = st.batchLog ∧
      (runStages env cfg cues (stage :: rest) st).resegmentLog.length ≤
        st.resegmentLog.length + 1) := by
  refine ⟨?_, ?_, ?_⟩
  · intro h
    exact runStages_returned (processStage_check_false h)
  · intro h
    exact runSubBatches_check_false h
  · intro H
    by_cases h0 : env.runActive st.checks = true
    · by_cases hw : stage.«end» ≤ stage.start
      · rw [runStages_next (processStage_empty_window h0 hw)]
        obtain ⟨ck, hck⟩ := runStages_disabled env cfg cues rest
          { st with checks := st.checks + 1 } (fun n hn => H n (by simp at hn; omega))
        rw [hck]
        exact ⟨rfl, rfl, rfl, by simp⟩
      · have finisher : ∀ (R : List CueSentenceRange) (stX : PipelineState),
            stX.lastError = st.lastError → stX.translations = st.translations →
            stX.batchLog = st.batchLog →
            stX.resegmentLog.length ≤ st.resegmentLog.length + 1 →
            stX.checks = st.checks + 1 →
            processStage env cfg cues stage st =
              stageBatchPhase env cfg cues stage R stX →
            (runStages env cfg cues (stage :: rest) st).lastError = st.lastError ∧
            (runStages env cfg cues (stage :: rest) st).translations =
              st.translations ∧
            (runStages env cfg cues (stage :: rest) st).batchLog = st.batchLog ∧
            (runStages env cfg cues (stage :: rest) st).resegmentLog.length ≤
              st.resegmentLog.length + 1 := by
          intro R stX hle htr hbl hrl hck hps
          obtain ⟨st', oc, heq, hle', htr', hbl', hrl', hck', hoc⟩ :=
            stageBatchPhase_disabled env cfg cues stage R stX
              (H stX.checks (by omega))
          have hps' : processStage env cfg cues stage st = (st', oc) := by
            rw [hps, heq]
          rcases hoc with rfl | rfl
          · rw [runStages_next hps']
            obtain ⟨ck, hck2⟩ := runStages_disabled env cfg cues rest st'
              (fun n hn => H n (by omega))
            rw [hck2]
            refine ⟨?_, ?_, ?_, ?_⟩
            · rw [hle', hle]
            · rw [htr', htr]
            · rw [hbl', hbl]
            · simpa [hrl'] using hrl
          · rw [runStages_returned hps']
            refine ⟨?_, ?_, ?_, ?_⟩
            · rw [hle', hle]
            · rw [htr', htr]
            · rw [hbl', hbl]
            · rw [hrl']
              exact hrl
        by_cases ht : stageTexts cues stage = []
        · exact finisher _ { st with checks := st.checks + 1 } rfl rfl rfl
            (by simp) rfl (processStage_no_texts h0 hw ht)
        · cases hr : env.resegment st.resegmentLog.length (stageTexts cues stage) with
          | ok sentences =>
            exact finisher _
              { st with checks := st.checks + 1,
                        resegmentLog := st.resegmentLog ++ [stageTexts cues stage] }
              rfl rfl rfl (by simp) rfl (processStage_resegment_ok h0 hw ht hr)
          | error e =>
            exact finisher _
              { st with checks := st.checks + 1,
                        resegmentLog := st.resegmentLog ++ [stageTexts cues stage] }
              rfl rfl rfl (by simp) rfl (processStage_resegment_error h0 hw ht hr)
    · rw [runStages_returned (processStage_check_false (by simpa using h0))]
      exact ⟨rfl, rfl, rfl, by simp⟩

/-- Concrete environment for the C7 witness: disabled from the start. -/
def c7Env : PipelineEnv :=
  { resegment := fun _ _ => .ok []
    translateBatch := fun _ items => .ok (items.map fun it => (it.id, it.text))
    runActive := fun _ => false }

def c7St : PipelineState := ⟨[], ⟨2, 0, 0, 2⟩, none, 0, [], []⟩

theorem C7_witness :
    runStages c7Env ⟨8, 24, 100⟩ [⟨0, 1, 1, "a"⟩, ⟨1, 1, 2, "b"⟩] [⟨0, 2⟩] c7St =
      { c7St with checks := 1 } ∧
    runSubBatches c7Env [] [[⟨"0", "a", [], []⟩]] c7St =
      ({ c7St with checks := 1 }, .cancelled) ∧
    (runStages c7Env ⟨8, 24, 100⟩ [⟨0, 1, 1, "a"⟩, ⟨1, 1, 2, "b"⟩] [⟨0, 2⟩]
      c7St).lastError = c7St.lastError := by
  have h := C7_cancellation_checks c7Env ⟨8, 24, 100⟩
    [⟨0, 1, 1, "a"⟩, ⟨1, 1, 2, "b"⟩] ⟨0, 2⟩ [] [] [⟨"0", "a", [], []⟩] [] c7St
  exact ⟨h.1 rfl, h.2.1 rfl, (h.2.2 (fun n _ => rfl)).1⟩

/-- The spec's Progress Counters invariant: all four counters non-negative. -/
def ProgressInv (p : Progress) : Prop :=
  0 ≤ p.total ∧ 0 ≤ p.translated ∧ 0 ≤ p.inflight ∧ 0 ≤ p.pending

instance (p : Progress) : Decidable (ProgressInv p) :=
  inferInstanceAs (Decidable (_ ∧ _ ∧ _ ∧ _))

lemma stageBatchPhase_progress (env : PipelineEnv) (cfg : PipelineConfig)
    (cues : List SubtitleCue) (stage : StageWindow) (ranges : List CueSentenceRange)
    (st : PipelineState) (hInv : ProgressInv st.progress) :
    ProgressInv (stageBatchPhase env cfg cues stage ranges st).1.progress ∧
    st.progress.translated ≤
      (stageBatchPhase env cfg cues stage ranges st).1.progress.translated ∧
    (stageBatchPhase env cfg cues stage ranges st).1.progress.total =
      st.progress.total := by
  obtain ⟨hto, htr, hin, hpe⟩ := hInv
  unfold stageBatchPhase
  by_cases hemp : (buildResegmentStageItems cues cfg.contextWindow ranges
      stage.start).1.isEmpty = true
  · rw [if_pos hemp]
    exact ⟨⟨hto, htr, hin, hpe⟩, le_rfl, rfl⟩
  · rw [if_neg hemp]
    set stA := stageEnterProgress cues stage st with hstA
    have hAtot : stA.progress.total = st.progress.total := rfl
    have hAtr : stA.progress.translated = st.progress.translated := rfl
    obtain ⟨_, _, _, hBtot, hBin, hBpe, hBtr, _⟩ := runSubBatches_fields env
      (buildResegmentStageItems cues cfg.contextWindow ranges stage.start).2
      (chunkList cfg.subBatchSize
        (buildResegmentStageItems cues cfg.contextWindow ranges stage.start).1) stA
    set so := runSubBatches env
      (buildResegmentStageItems cues cfg.contextWindow ranges stage.start).2
      (chunkList cfg.subBatchSize
        (buildResegmentStageItems cues cfg.contextWindow ranges stage.start).1) stA
      with hso
    have hfin : (stageFinallyProgress cues stage (recordOutcome so.2 so.1)).progress.total
        = so.1.progress.total := by
      rw [show (stageFinallyProgress cues stage (recordOutcome so.2 so.1)).progress.total
        = (recordOutcome so.2 so.1).progress.total from rfl, recordOutcome_progress]
    have hfintr : (stageFinallyProgress cues stage
        (recordOutcome so.2 so.1)).progress.translated = so.1.progress.translated := by
      rw [show (stageFinallyProgress cues stage
          (recordOutcome so.2 so.1)).progress.translated
        = (recordOutcome so.2 so.1).progress.translated from rfl, recordOutcome_progress]
    have hfinin : 0 ≤ (stageFinallyProgress cues stage
        (recordOutcome so.2 so.1)).progress.inflight := le_max_left 0 _
    have hfinpe : 0 ≤ (stageFinallyProgress cues stage
        (recordOutcome so.2 so.1)).progress.pending := le_max_left 0 _
    refine ⟨⟨?_, ?_, hfinin, hfinpe⟩, ?_, ?_⟩
    · rw [hfin, hBtot, hAtot]
      exact hto
    · rw [hfintr]
      refine le_trans ?_ hBtr
      rw [hAtr]
      exact htr
    · rw [hfintr]
      refine le_trans ?_ hBtr
      rw [hAtr]
    · rw [hfin, hBtot, hAtot]

lemma processStage_progress (env : PipelineEnv) (cfg : PipelineConfig)
    (cues : List SubtitleCue) (stage : StageWindow) (st : PipelineState)
    (hInv : ProgressInv st.progress) :
    ProgressInv (processStage env cfg cues stage st).1.progress ∧
    st.progress.translated ≤
      (processStage env cfg cues stage st).1.progress.translated := by
  by_cases h : env.runActive st.checks = true
  · by_cases hw : stage.«end» ≤ stage.start
    · rw [processStage_empty_window h hw]
      exact ⟨hInv, le_rfl⟩
    · by_cases ht : stageTexts cues stage = []
      · rw [processStage_no_texts h hw ht]
        have := stageBatchPhase_progress env cfg cues stage
          (mapSentencesToRangesOrFallback [] (stageChunk cues stage))
          { st with checks := st.checks + 1 } hInv
        exact ⟨this.1, this.2.1⟩
      · cases hr : env.resegment st.resegmentLog.length (stageTexts cues stage) with
        | ok sentences =>
          rw [processStage_resegment_ok h hw ht hr]
          have := stageBatchPhase_progress env cfg cues stage
            (mapSentencesToRangesOrFallback sentences (stageChunk cues stage))
            { st with checks := st.checks + 1,
                      resegmentLog := st.resegmentLog ++ [stageTexts cues stage] } hInv
          exact ⟨this.1, this.2.1⟩
        | error e =>
          rw [processStage_resegment_error h hw ht hr]
          have := stageBatchPhase_progress env cfg cues stage
            (mapSentencesToRangesOrFallback [] (stageChunk cues stage))
            { st with checks := st.checks + 1,
                      resegmentLog := st.resegmentLog ++ [stageTexts cues stage] } hInv
          exact ⟨this.1, this.2.1⟩
  · rw [processStage_check_false (by simpa using h)]
    exact ⟨hInv, le_rfl⟩

lemma runStages_progress (env : PipelineEnv) (cfg : PipelineConfig)
    (cues : List SubtitleCue) :
    ∀ (stages : List StageWindow) (st : PipelineState), ProgressInv st.progress →
      ProgressInv (runStages env cfg cues stages st).progress ∧
      st.progress.translated ≤
        (runStages env cfg cues stages st).progress.translated := by
  intro stages
  induction stages with
  | nil => intro st hInv; exact ⟨hInv, le_rfl⟩
  | cons stage rest ih =>
    intro st hInv
    have hstep := processStage_progress env cfg cues stage st hInv
    rcases hps : processStage env cfg cues stage st with ⟨st', oc⟩
    rw [hps] at hstep
    cases oc with
    | next =>
      rw [runStages_next hps]
      have := ih st' hstep.1
      exact ⟨this.1, le_trans hstep.2 this.2⟩
    | returned => rw [runStages_returned hps]; exact hstep
    | broke => rw [runStages_broke hps]; exact hstep

lemma applyAllResults_translated_le (resp : List (String × String)) :
    ∀ (its : List BatchTranslationItem) (m : List (Nat × String)) (tr : Int),
      tr ≤ (applyAllResults resp its m tr).2 := by
  intro its
  induction its with
  | nil => intro m tr; exact le_rfl
  | cons it rest ih =>
    intro m tr
    rw [applyAllResults]
    exact le_trans (by omega) (ih _ (tr + 1))

lemma runAllLoop_check_false {env : PipelineEnv} {cfg : PipelineConfig}
    {cues : List SubtitleCue} {idxs : List Nat} {rest : List (List Nat)}
    {st : PipelineState} (h : env.runActive st.checks = false) :
    runAllLoop env cfg cues (idxs :: rest) st = { st with checks := st.checks + 1 } := by
  unfold runAllLoop
  simp [h]

lemma runAllLoop_error {env : PipelineEnv} {cfg : PipelineConfig}
    {cues : List SubtitleCue} {idxs : List Nat} {rest : List (List Nat)}
    {st : PipelineState} {e : String}
    (h : env.runActive st.checks = true)
    (he : env.translateBatch st.batchLog.length
      (idxs.map (mkBatchItem cues cfg.contextWindow)) = .error e) :
    runAllLoop env cfg cues (idxs :: rest) st =
      allFinally cues (idxs.map (mkBatchItem cues cfg.contextWindow))
        { allEnter cues (idxs.map (mkBatchItem cues cfg.contextWindow))
            { st with checks := st.checks + 1 } with lastError := some e } := by
  unfold runAllLoop
  simp [h, he]

lemma runAllLoop_ok {env : PipelineEnv} {cfg : PipelineConfig}
    {cues : List SubtitleCue} {idxs : List Nat} {rest : List (List Nat)}
    {st : PipelineState} {resp : List (String × String)}
    (h : env.runActive st.checks = true)
    (he : env.translateBatch st.batchLog.length
      (idxs.map (mkBatchItem cues cfg.contextWindow)) = .ok resp) :
    runAllLoop env cfg cues (idxs :: rest) st =
      runAllLoop env cfg cues rest
        (allFinally cues (idxs.map (mkBatchItem cues cfg.contextWindow))
          (let stA := allEnter cues (idxs.map (mkBatchItem cues cfg.contextWindow))
            { st with checks := st.checks + 1 }
           let mt := applyAllResults resp
             (idxs.map (mkBatchItem cues cfg.contextWindow)) stA.translations
             stA.progress.translated
           { stA with
             translations := mt.1
             progress := { stA.progress with translated := mt.2 } })) := by
  conv_lhs => rw [runAllLoop]
  simp [h, he]

/-- Summary of one successful `translateAllCues` iteration: the loop proceeds
with a state whose counters kept their invariant and whose `translated` only
grew. -/
lemma runAllLoop_ok_step {env : PipelineEnv} {cfg : PipelineConfig}
    {cues : List SubtitleCue} {idxs : List Nat} {rest : List (List Nat)}
    {st : PipelineState} {resp : List (String × String)}
    (h : env.runActive st.checks = true)
    (he : env.translateBatch st.batchLog.length
      (idxs.map (mkBatchItem cues cfg.contextWindow)) = .ok resp) :
    ∃ stMid, runAllLoop env cfg cues (idxs :: rest) st =
        runAllLoop env cfg cues rest stMid ∧
      stMid.progress.total = st.progress.total ∧
      st.progress.translated ≤ stMid.progress.translated ∧
      0 ≤ stMid.progress.inflight ∧ 0 ≤ stMid.progress.pending := by
  refine ⟨_, runAllLoop_ok h he, rfl, ?_, le_max_left 0 _, le_max_left 0 _⟩
  exact applyAllResults_translated_le resp _ _ _

lemma allEnter_fields (cues : List SubtitleCue) (items : List BatchTranslationItem)
    (st : PipelineState) :
    (allEnter cues items st).progress.total = st.progress.total ∧
    (allEnter cues items st).progress.translated = st.progress.translated ∧
    0 ≤ (allEnter cues items st).progress.pending ∧
    (allEnter cues items st).checks = st.checks ∧
    (allEnter cues items st).translations = st.translations ∧
    (allEnter cues items st).lastError = st.lastError :=
  ⟨rfl, rfl, le_max_left 0 _, rfl, rfl, rfl⟩

lemma allFinally_fields (cues : List SubtitleCue) (items : List BatchTranslationItem)
    (st : PipelineState) :
    (allFinally cues items st).progress.total = st.progress.total ∧
    (allFinally cues items st).progress.translated = st.progress.translated ∧
    0 ≤ (allFinally cues items st).progress.inflight ∧
    0 ≤ (allFinally cues items st).progress.pending ∧
    (allFinally cues items st).checks = st.checks ∧
    (allFinally cues items st).translations = st.translations ∧
    (allFinally cues items st).lastError = st.lastError :=
  ⟨rfl, rfl, le_max_left 0 _, le_max_left 0 _, rfl, rfl, rfl⟩

lemma runAllLoop_progress (env : PipelineEnv) (cfg : PipelineConfig)
    (cues : List SubtitleCue) :
    ∀ (chunks : List (List Nat)) (st : PipelineState), ProgressInv st.progress →
      ProgressInv (runAllLoop env cfg cues chunks st).progress ∧
      st.progress.translated ≤
        (runAllLoop env cfg cues chunks st).progress.translated := by
  intro chunks
  induction chunks with
  | nil => intro st hInv; exact ⟨hInv, le_rfl⟩
  | cons idxs rest ih =>
    intro st hInv
    obtain ⟨hto, htr, hin, hpe⟩ := hInv
    by_cases h : env.runActive st.checks = true
    · cases he : env.translateBatch st.batchLog.length
          (idxs.map (mkBatchItem cues cfg.contextWindow)) with
      | error e =>
        rw [runAllLoop_error h he]
        exact ⟨⟨hto, htr, le_max_left 0 _, le_max_left 0 _⟩, le_rfl⟩
      | ok resp =>
        obtain ⟨stMid, heq, h1, h2, h3, h4⟩ := runAllLoop_ok_step h he
        rw [heq]
        have hnext := ih stMid ⟨by rw [h1]; exact hto, le_trans htr h2, h3, h4⟩
        exact ⟨hnext.1, le_trans h2 hnext.2⟩
    · rw [runAllLoop_check_false (by simpa using h)]
      exact ⟨⟨hto, htr, hin, hpe⟩, le_rfl⟩

/-- C9: all four Progress Counters remain non-negative after every update
performed by `translateAsrCuesByPlaybackStages` and `translateAllCues`, for
every sequence of sub-batch successes and failures (decrements and pending
recomputations are clamped at zero), and `translated` only increments. -/
theorem C9_progress_nonneg (env : PipelineEnv) (cfg : PipelineConfig)
    (cues : List SubtitleCue) :
    (∀ (stages : List StageWindow) (st : PipelineState), ProgressInv st.progress →
      ProgressInv (runStages env cfg cues stages st).progress ∧
      st.progress.translated ≤
        (runStages env cfg cues stages st).progress.translated) ∧
    (∀ (chunks : List (List Nat)) (st : PipelineState), ProgressInv st.progress →
      ProgressInv (runAllLoop env cfg cues chunks st).progress ∧
      st.progress.translated ≤
        (runAllLoop env cfg cues chunks st).progress.translated) ∧
    (∀ (videoTime : Option ℚ) (st : PipelineState), ProgressInv st.progress →
      ProgressInv (translateAsrCuesByPlaybackStages env cfg cues videoTime
        st).progress) ∧
    (∀ st : PipelineState, ProgressInv st.progress →
      ProgressInv (translateAllCues env cfg cues st).progress) := by
  refine ⟨runStages_progress env cfg cues, runAllLoop_progress env cfg cues, ?_, ?_⟩
  · intro videoTime st hInv
    unfold translateAsrCuesByPlaybackStages
    by_cases h : cues.length = 0
    · rw [if_pos h]; exact hInv
    · rw [if_neg h]
      exact (runStages_progress env cfg cues _ st hInv).1
  · intro st hInv
    unfold translateAllCues
    by_cases h : cues.length = 0
    · rw [if_pos h]; exact hInv
    · rw [if_neg h]
      exact (runAllLoop_progress env cfg cues _ st hInv).1

def c9St : PipelineState := ⟨[], ⟨1, 0, 0, 1⟩, none, 0, [], []⟩

def c9Env : PipelineEnv :=
  { resegment := fun _ _ => .error "down"
    translateBatch := fun _ _ => .error "down"
    runActive := fun _ => true }

theorem C9_witness :
    ProgressInv c9St.progress ∧
    ProgressInv (translateAllCues c9Env ⟨8, 24, 100⟩ [⟨0, 1, 1, "hello"⟩]
      c9St).progress :=
  ⟨by decide, (C9_progress_nonneg c9Env ⟨8, 24, 100⟩ [⟨0, 1, 1, "hello"⟩]).2.2.2
    c9St (by decide)⟩

lemma stageFinallyProgress_lastError (cues : List SubtitleCue) (stage : StageWindow)
    (st : PipelineState) : (stageFinallyProgress cues stage st).lastError =
      st.lastError := rfl

lemma runSubBatches_failed_src (env : PipelineEnv) (byId : List (String × Nat × Nat)) :
    ∀ (bs : List (List BatchTranslationItem)) (st : PipelineState)
      (stB : PipelineState) (e : String),
      runSubBatches env byId bs st = (stB, .failed e) →
      ∃ n b, env.translateBatch n b = .error e := by
  intro bs
  induction bs with
  | nil =>
    intro st stB e h
    rw [show runSubBatches env byId [] st = (st, .completed) from rfl] at h
    simp at h
  | cons b rest ih =>
    intro st stB e h
    by_cases hr : env.runActive st.checks = true
    · cases he : env.translateBatch st.batchLog.length b with
      | error e2 =>
        rw [runSubBatches_error hr he] at h
        obtain ⟨-, h2⟩ := Prod.mk.injEq .. ▸ h
        cases h2
        exact ⟨st.batchLog.length, b, he⟩
      | ok resp =>
        rw [runSubBatches_ok hr he] at h
        exact ih _ _ _ h
    · rw [runSubBatches_check_false (by simpa using hr)] at h
      simp at h

lemma stageBatchPhase_broke (env : PipelineEnv) (cfg : PipelineConfig)
    (cues : List SubtitleCue) (stage : StageWindow) (ranges : List CueSentenceRange)
    (st st' : PipelineState)
    (h : stageBatchPhase env cfg cues stage ranges st = (st', .broke)) :
    ∃ e, st'.lastError = some e ∧ ∃ n b, env.translateBatch n b = .error e := by
  unfold stageBatchPhase at h
  by_cases hemp : (buildResegmentStageItems cues cfg.contextWindow ranges
      stage.start).1.isEmpty = true
  · rw [if_pos hemp] at h
    simp at h
  · rw [if_neg hemp] at h
    rcases hso : runSubBatches env
        (buildResegmentStageItems cues cfg.contextWindow ranges stage.start).2
        (chunkList cfg.subBatchSize
          (buildResegmentStageItems cues cfg.contextWindow ranges stage.start).1)
        (stageEnterProgress cues stage st) with ⟨stB, oc⟩
    rw [hso] at h
    cases oc with
    | completed => simp [stageOutcomeOf] at h
    | cancelled => simp [stageOutcomeOf] at h
    | failed e =>
      refine ⟨e, ?_, runSubBatches_failed_src env _ _ _ _ _ hso⟩
      have h1 : st' = stageFinallyProgress cues stage
          (recordOutcome (.failed e) stB) := by
        have := (Prod.mk.injEq .. ▸ h).1
        exact this.symm
      rw [h1, stageFinallyProgress_lastError]
      rfl

lemma processStage_broke (env : PipelineEnv) (cfg : PipelineConfig)
    (cues : List SubtitleCue) (stage : StageWindow) (st st' : PipelineState)
    (h : processStage env cfg cues stage st = (st', .broke)) :
    ∃ e, st'.lastError = some e ∧ ∃ n b, env.translateBatch n b = .error e := by
  by_cases h0 : env.runActive st.checks = true
  · by_cases hw : stage.«end» ≤ stage.start
    · rw [processStage_empty_window h0 hw] at h
      simp at h
    · by_cases ht : stageTexts cues stage = []
      · rw [processStage_no_texts h0 hw ht] at h
        exact stageBatchPhase_broke env cfg cues stage _ _ _ h
      · cases hr : env.resegment st.resegmentLog.length (stageTexts cues stage) with
        | ok sentences =>
          rw [processStage_resegment_ok h0 hw ht hr] at h
          exact stageBatchPhase_broke env cfg cues stage _ _ _ h
        | error e =>
          rw [processStage_resegment_error h0 hw ht hr] at h
          exact stageBatchPhase_broke env cfg cues stage _ _ _ h
  · rw [processStage_check_false (by simpa using h0)] at h
    simp at h

/-- C3: if any batch-translation sub-batch request of a run fails, the run
records the rejection's human-readable message in the last-error field and
stops processing all remaining stages, while the Translation Map is neither
cleared nor shrunk: every entry present at any point of the run is present
at its end, and the failing dispatch itself changes nothing but the check
counter and the request log. -/
theorem C3_batch_failure_aborts (env : PipelineEnv) (cfg : PipelineConfig)
    (cues : List SubtitleCue) (stage : StageWindow) (rest : List StageWindow)
    (byId : List (String × Nat × Nat)) :
    (∀ st st', processStage env cfg cues stage st = (st', .broke) →
      ∃ e, st'.lastError = some e ∧ ∃ n b, env.translateBatch n b = .error e) ∧
    (∀ st st', processStage env cfg cues stage st = (st', .broke) →
      runStages env cfg cues (stage :: rest) st = st') ∧
    (∀ (st : PipelineState) (e : String) (b : List BatchTranslationItem)
        (bs : List (List BatchTranslationItem)),
      env.runActive st.checks = true →
      env.translateBatch st.batchLog.length b = .error e →
      runSubBatches env byId (b :: bs) st =
        ({ st with checks := st.checks + 1, batchLog := st.batchLog ++ [b] },
          .failed e)) ∧
    (∀ (stages : List StageWindow) (st : PipelineState) (k : Nat),
      mapHas st.translations k = true →
      mapHas (runStages env cfg cues stages st).translations k = true) := by
  refine ⟨?_, ?_, ?_, ?_⟩
  · intro st st' h
    exact processStage_broke env cfg cues stage st st' h
  · intro st st' h
    exact runStages_broke h
  · intro st e b bs h he
    exact runSubBatches_error h he
  · exact runStages_translations_has env cfg cues

def c3Env : PipelineEnv :=
  { resegment := fun _ _ => .error "resegment down"
    translateBatch := fun _ _ => .error "翻译请求失败"
    runActive := fun _ => true }

def c3St : PipelineState := ⟨[(7, "旧")], ⟨1, 1, 0, 0⟩, none, 0, [], []⟩

theorem C3_witness :
    (∃ e, (processStage c3Env ⟨8, 24, 100⟩ [⟨0, 1, 1, "hello"⟩] ⟨0, 1⟩ c3St).1.lastError =
        some e ∧ ∃ n b, c3Env.translateBatch n b = .error e) ∧
    runStages c3Env ⟨8, 24, 100⟩ [⟨0, 1, 1, "hello"⟩] [⟨0, 1⟩] c3St =
      (processStage c3Env ⟨8, 24, 100⟩ [⟨0, 1, 1, "hello"⟩] ⟨0, 1⟩ c3St).1 ∧
    runSubBatches c3Env [] [[⟨"0", "hello", [], []⟩]] c3St =
      ({ c3St with checks := 1, batchLog := [[⟨"0", "hello", [], []⟩]] }, .failed "翻译请求失败") ∧
    mapHas (runStages c3Env ⟨8, 24, 100⟩ [⟨0, 1, 1, "hello"⟩] [⟨0, 1⟩]
      c3St).translations 7 = true := by
  have hc := C3_batch_failure_aborts c3Env ⟨8, 24, 100⟩ [⟨0, 1, 1, "hello"⟩] ⟨0, 1⟩ []
    ([] : List (String × Nat × Nat))
  have hsnd : (processStage c3Env ⟨8, 24, 100⟩ [⟨0, 1, 1, "hello"⟩] ⟨0, 1⟩ c3St).2 =
      .broke := by decide
  have hps : processStage c3Env ⟨8, 24, 100⟩ [⟨0, 1, 1, "hello"⟩] ⟨0, 1⟩ c3St =
      ((processStage c3Env ⟨8, 24, 100⟩ [⟨0, 1, 1, "hello"⟩] ⟨0, 1⟩ c3St).1, .broke) := by
    rw [← hsnd]
  refine ⟨hc.1 _ _ hps, hc.2.1 _ _ hps, ?_, hc.2.2.2 [⟨0, 1⟩] c3St 7 (by decide)⟩
  exact hc.2.2.1 c3St "翻译请求失败" [⟨"0", "hello", [], []⟩] [] rfl rfl

/-- The test scenario of tests/youtube-resegment-flow.test.ts: five one-second
cues. -/
def c2Cues : List SubtitleCue :=
  [⟨0, 1, 1, "a"⟩, ⟨1, 1, 2, "b"⟩, ⟨2, 1, 3, "c"⟩, ⟨3, 1, 4, "d"⟩, ⟨4, 1, 5, "e"⟩]

/-- A re-segment service that always rejects and a batch-translation service
that translates every item. -/
def c2Env : PipelineEnv :=
  { resegment := fun _ _ => .error "mock resegment failed"
    translateBatch := fun _ items => .ok (items.map fun it => (it.id, "zh:" ++ it.text))
    runActive := fun _ => true }

def c2Cfg : PipelineConfig := ⟨8, 24, 100⟩

def c2St : PipelineState := ⟨[], ⟨5, 0, 0, 5⟩, none, 0, [], []⟩

/-- C2: when a stage's re-segment request rejects, the pipeline substitutes
identity ranges for that stage (one range per original cue) and continues
with the stage's batching phase instead of aborting the run; in particular,
with 5 cues and an always-rejecting re-segment service, batch-translation
requests are still issued for all 5 original cue texts and
`progress.translated` ends at 5. -/
theorem C2_resegment_failure_fallback (env : PipelineEnv) (cfg : PipelineConfig)
    (cues : List SubtitleCue) (stage : StageWindow) (st : PipelineState) :
    (∀ e : String, env.runActive st.checks = true → ¬stage.«end» ≤ stage.start →
      stageTexts cues stage ≠ [] →
      env.resegment st.resegmentLog.length (stageTexts cues stage) = .error e →
      processStage env cfg cues stage st =
        stageBatchPhase env cfg cues stage
          (mapSentencesToRangesOrFallback [] (stageChunk cues stage))
          { st with checks := st.checks + 1,
                    resegmentLog := st.resegmentLog ++ [stageTexts cues stage] }) ∧
    (∀ chunk : List SubtitleCue,
      mapSentencesToRangesOrFallback [] chunk =
        identityRanges (chunk.map fun c => normalizeWs c.text)) ∧
    ((translateAsrCuesByPlaybackStages c2Env c2Cfg c2Cues none c2St).batchLog.join.map
        fun it => it.text) = ["a", "b", "c", "d", "e"] ∧
    (translateAsrCuesByPlaybackStages c2Env c2Cfg c2Cues none c2St).progress.translated
      = 5 := by
  refine ⟨?_, fun chunk => rfl, by decide, by decide⟩
  intro e h hw ht hr
  exact processStage_resegment_error h hw ht hr

theorem C2_witness :
    processStage c2Env c2Cfg c2Cues ⟨0, 5⟩ c2St =
      stageBatchPhase c2Env c2Cfg c2Cues ⟨0, 5⟩
        (mapSentencesToRangesOrFallback [] (stageChunk c2Cues ⟨0, 5⟩))
        { c2St with checks := 1,
                    resegmentLog := [stageTexts c2Cues ⟨0, 5⟩] } :=
  (C2_resegment_failure_fallback c2Env c2Cfg c2Cues ⟨0, 5⟩ c2St).1
    "mock resegment failed" rfl (by decide) (by decide) rfl

lemma lookup_mapSet_self : ∀ (m : List (Nat × String)) (k : Nat) (v : String),
    (mapSet m k v).lookup k = some v := by
  intro m
  induction m with
  | nil => intro k v; simp [mapSet, List.lookup]
  | cons p rest ih =>
    intro k v
    obtain ⟨a, b⟩ := p
    rw [mapSet]
    by_cases hak : a = k
    · rw [if_pos hak]
      simp [List.lookup]
    · rw [if_neg hak]
      have hka : (k == a) = false := beq_eq_false_iff_ne.mpr fun hh => hak hh.symm
      simp only [List.lookup, hka]
      exact ih k v

lemma lookup_mapSet_ne : ∀ (m : List (Nat × String)) (k j : Nat) (v : String),
    j ≠ k → (mapSet m k v).lookup j = m.lookup j := by
  intro m
  induction m with
  | nil =>
    intro k j v hjk
    have hjk2 : (j == k) = false := beq_eq_false_iff_ne.mpr hjk
    simp [mapSet, List.lookup, hjk2]
  | cons p rest ih =>
    intro k j v hjk
    obtain ⟨a, b⟩ := p
    rw [mapSet]
    have hjk2 : (j == k) = false := beq_eq_false_iff_ne.mpr hjk
    by_cases hak : a = k
    · rw [if_pos hak]
      subst hak
      simp only [List.lookup, hjk2]
    · rw [if_neg hak]
      simp only [List.lookup]
      cases hja : j == a with
      | true => rfl
      | false => exact ih k j v hjk

lemma applyWriteList_lookup_or (v : String) :
    ∀ (idxs : List Nat) (m : List (Nat × String)) (tr : Int) (j : Nat),
      (applyWriteList v idxs m tr).1.lookup j = m.lookup j ∨
      (applyWriteList v idxs m tr).1.lookup j = some v := by
  intro idxs
  induction idxs with
  | nil => intro m tr j; exact Or.inl rfl
  | cons i rest ih =>
    intro m tr j
    rw [applyWriteList]
    by_cases hji : j = i
    · subst hji
      rcases ih (mapSet m j v) _ j with h | h
      · rw [lookup_mapSet_self] at h
        exact Or.inr h
      · exact Or.inr h
    · rcases ih (mapSet m i v) _ j with h | h
      · rw [lookup_mapSet_ne m i j v hji] at h
        exact Or.inl h
      · exact Or.inr h

lemma applyWriteList_lookup_mem (v : String) :
    ∀ (idxs : List Nat) (m : List (Nat × String)) (tr : Int) (j : Nat),
      j ∈ idxs → (applyWriteList v idxs m tr).1.lookup j = some v := by
  intro idxs
  induction idxs with
  | nil => intro m tr j hj; simp at hj
  | cons i rest ih =>
    intro m tr j hj
    rw [applyWriteList]
    rcases List.mem_cons.mp hj with rfl | hmem
    · rcases applyWriteList_lookup_or v rest (mapSet m j v) _ j with h | h
      · rw [lookup_mapSet_self] at h
        exact h
      · exact h
    · exact ih _ _ j hmem

def c4Cues : List SubtitleCue := [⟨0, 1, 1, "hello"⟩]

/-- A batch-translation service that succeeds but returns an empty mapping
(every dispatched id is absent from the response). -/
def c4Env : PipelineEnv :=
  { resegment := fun _ _ => .error "resegment down"
    translateBatch := fun _ _ => .ok []
    runActive := fun _ => true }

def c4St : PipelineState := ⟨[], ⟨1, 0, 0, 1⟩, none, 0, [], []⟩

/-- C4 counterexample: one cue, identity fallback, a successful batch
response with an empty mapping.  The single dispatched item has id "0" and
the response does not contain it, yet the Translation Map receives an entry
for index 0 — the item's original text — contradicting the claim that an
absent id never gets a Translation Map entry. -/
theorem C4_counterexample :
    ((translateAsrCuesByPlaybackStages c4Env c2Cfg c4Cues none c4St).batchLog.join.map
      fun it => it.id) = ["0"] ∧
    c4Env.translateBatch 0
      ((translateAsrCuesByPlaybackStages c4Env c2Cfg c4Cues none
        c4St).batchLog.getD 0 []) = .ok [] ∧
    (translateAsrCuesByPlaybackStages c4Env c2Cfg c4Cues none
      c4St).translations.lookup 0 = some "hello" ∧
    (translateAsrCuesByPlaybackStages c4Env c2Cfg c4Cues none
      c4St).progress.translated = 1 := by
  refine ⟨by decide, rfl, by decide, by decide⟩

/-- C4 (amended): for every dispatched batch-translation item whose id is
absent from a successful response mapping, the Translation Map receives the
item's **original text** as the entry for every cue index in the item's
range, and `translated` is incremented for each newly populated index — the
original-text fallback (`translated[item.id] ?? item.text`) is applied inside
this core, not left to an outer layer. -/
theorem C4_missing_id_gets_original_text :
    (∀ (resp : List (String × String)) (byId : List (String × Nat × Nat))
        (it : BatchTranslationItem) (m : List (Nat × String)) (tr : Int)
        (s e : Nat),
      byId.lookup it.id = some (s, e) → resp.lookup it.id = none →
      ∀ j, s ≤ j → j ≤ e →
        (applyBatchResults resp byId [it] m tr).1.lookup j = some it.text) ∧
    (translateAsrCuesByPlaybackStages c4Env c2Cfg c4Cues none
      c4St).translations.lookup 0 = some "hello" := by
  refine ⟨?_, by decide⟩
  intro resp byId it m tr s e hby hresp j hsj hje
  have hmem : j ∈ List.range' s (e + 1 - s) := by
    rw [List.mem_range'_1]
    exact ⟨hsj, by omega⟩
  have hlook := applyWriteList_lookup_mem it.text (List.range' s (e + 1 - s)) m tr j hmem
  have hred : applyBatchResults resp byId [it] m tr =
      applyWriteList it.text (List.range' s (e + 1 - s)) m tr := by
    rw [applyBatchResults, hby, hresp]
    rfl
  rw [hred]
  exact hlook

theorem C4_witness :
    (applyBatchResults [] [("0", 2, 3)] [⟨"0", "hi", [], []⟩] [] 0).1.lookup 2 =
      some "hi" :=
  (C4_missing_id_gets_original_text).1 [] [("0", 2, 3)] ⟨"0", "hi", [], []⟩ [] 0 2 3
    rfl rfl 2 (by decide) (by decide)

end Translator
